import Mathlib

/-
Verification of the JSON tree core of vcmi (src/lib/JsonNode.h).

The header declares the tagged-value tree `JsonNode` (a variant over
null / bool / double / string / vector / map / si64 plus a `meta` string
and a `flags` string list per node) and the algorithm family in
`JsonUtils` (merge, difference, intersect, minimize, maximize, validate,
resolvePointer, accessors).  Only the declarations and the `convertTo`
template code are part of the source; the bodies of the tree algorithms
live outside it, so those operations are modelled from the specification
text, as marked on each definition.

Design notes on the embedding:
  * the three mutually inductive types below mirror the C++ data model:
    a node is a payload tag plus `meta` and `flags`; `JList` embeds
    `std::vector<JsonNode>` and `JMap` embeds
    `std::map<std::string, JsonNode>` as an association list whose
    well-formedness (key uniqueness) is tracked by `nodeWF`;
  * all definitions are structurally recursive, hence kernel-computable,
    so concrete scenarios can be settled by `decide` / `rfl`;
  * C++ `double` is embedded as `ℚ`; the only lossy double operation the
    claims touch, widening of `si64`, is modelled by `doubleOfInt` with
    IEEE-754 binary64 round-to-nearest-even on the 53-bit significand;
  * fatal contract violations (const accessor on a mismatched tag) are
    modelled as `Option` failure (`none`).
-/

set_option maxHeartbeats 1000000

mutual

/-- The tagged-value tree node of src/lib/JsonNode.h: one payload
matching the type tag (`DATA_NULL` .. `DATA_INTEGER`), plus the free-use
`meta` string and the `flags` marker list carried by every node. -/
inductive JsonNode : Type where
  | jnull (meta : String) (flags : List String)
  | jbool (b : Bool) (meta : String) (flags : List String)
  | jfloat (q : ℚ) (meta : String) (flags : List String)
  | jstr (s : String) (meta : String) (flags : List String)
  | jint (i : Int) (meta : String) (flags : List String)
  | jarr (elems : JList) (meta : String) (flags : List String)
  | jobj (entries : JMap) (meta : String) (flags : List String)

/-- Embedding of `JsonVector = std::vector<JsonNode>`. -/
inductive JList : Type where
  | nil
  | cons (head : JsonNode) (tail : JList)

/-- Embedding of `JsonMap = std::map<std::string, JsonNode>` as an
association list; key uniqueness (the `std::map` class invariant) is the
well-formedness predicate `nodeWF`. -/
inductive JMap : Type where
  | nil
  | cons (key : String) (val : JsonNode) (tail : JMap)

end

/-- The empty (null) node, as produced by the default constructor. -/
def nullNode : JsonNode := JsonNode.jnull "" []

/-- The `meta` field of a node. -/
def metaOf : JsonNode → String
  | .jnull m _ => m
  | .jbool _ m _ => m
  | .jfloat _ m _ => m
  | .jstr _ m _ => m
  | .jint _ m _ => m
  | .jarr _ m _ => m
  | .jobj _ m _ => m

/-- The `flags` field of a node. -/
def flagsOf : JsonNode → List String
  | .jnull _ f => f
  | .jbool _ _ f => f
  | .jfloat _ _ f => f
  | .jstr _ _ f => f
  | .jint _ _ f => f
  | .jarr _ _ f => f
  | .jobj _ _ f => f

/-- True exactly when the node's type tag is `DATA_NULL` (`isNull`). -/
def isNullData : JsonNode → Bool
  | .jnull _ _ => true
  | _ => false

/-- True exactly when the node's type tag is `DATA_STRUCT` (`isStruct`). -/
def isObjB : JsonNode → Bool
  | .jobj _ _ _ => true
  | _ => false

/-- The entry list of a struct node (empty for any other tag). -/
def structEntries : JsonNode → JMap
  | .jobj m _ _ => m
  | _ => .nil

/-- Lookup of a key in a struct's entry list (first occurrence), the
read-only part of `JsonNode::operator[](const std::string&)`. -/
def lookupJM (k : String) : JMap → Option JsonNode
  | .nil => none
  | .cons k2 v t => if k2 = k then some v else lookupJM k t

/-- Key membership test for a struct's entry list. -/
def keyMemJM (k : String) : JMap → Bool
  | .nil => false
  | .cons k2 _ t => if k2 = k then true else keyMemJM k t

/-- Lookup with the shared null node as the default, mirroring how the
merge engine materialises `dest[key]` before merging into it. -/
def getDJM (k : String) (m : JMap) : JsonNode :=
  match lookupJM k m with
  | some v => v
  | none => nullNode

/-- Store a value under a key: replace the first occurrence, or append a
fresh entry when the key is absent (`std::map` insert-or-assign, up to
the key order that the extensional equality below ignores). -/
def setJM (k : String) (v : JsonNode) : JMap → JMap
  | .nil => .cons k v .nil
  | .cons k2 v2 t => if k2 = k then .cons k2 v t else .cons k2 v2 (setJM k v t)

/-- Remove every entry carrying the given key (`std::map::erase`). -/
def eraseJM (k : String) : JMap → JMap
  | .nil => .nil
  | .cons k2 v t => if k2 = k then eraseJM k t else .cons k2 v (eraseJM k t)

/-- Concatenation of entry lists. -/
def appendJM : JMap → JMap → JMap
  | .nil, ys => ys
  | .cons k v t, ys => .cons k v (appendJM t ys)

/-- Every key of the first entry list occurs in the second. -/
def jmapKeys : JMap → JMap → Bool
  | .nil, _ => true
  | .cons k _ t, xs => keyMemJM k xs && jmapKeys t xs

/-- Key uniqueness of one entry list (the `std::map` invariant). -/
def distinctJM : JMap → Bool
  | .nil => true
  | .cons k _ t => !keyMemJM k t && distinctJM t

/-- Build an entry list from a `List` literal (concrete test data). -/
def JMap.ofList : List (String × JsonNode) → JMap
  | [] => .nil
  | (k, v) :: t => .cons k v (JMap.ofList t)

/-- Build an element list from a `List` literal (concrete test data). -/
def JList.ofList : List JsonNode → JList
  | [] => .nil
  | x :: t => .cons x (JList.ofList t)

/-- Length of an element list. -/
def lenJL : JList → Nat
  | .nil => 0
  | .cons _ t => lenJL t + 1

/-- Positional access into an element list. -/
def getJL : JList → Nat → Option JsonNode
  | .nil, _ => none
  | .cons x _, 0 => some x
  | .cons _ t, n + 1 => getJL t n

mutual

/-- Modelled from the spec: the body of `JsonNode::operator==` is not in
the source; the spec states that equality compares type and payload
only, deeply and structurally, with `meta` and `flags` excluded.  Struct
payloads (key-sorted unique-key `std::map`s in C++) are compared
extensionally: same key set and equal value per key, which coincides
with the C++ sequence comparison under the sortedness invariant. -/
def jsonEq : JsonNode → JsonNode → Bool
  | .jnull _ _, .jnull _ _ => true
  | .jbool a _ _, .jbool b _ _ => a == b
  | .jfloat a _ _, .jfloat b _ _ => a == b
  | .jstr a _ _, .jstr b _ _ => a == b
  | .jint a _ _, .jint b _ _ => a == b
  | .jarr xs _ _, .jarr ys _ _ => jlistEq xs ys
  | .jobj xs _ _, .jobj ys _ _ => jmapSub xs ys && jmapKeys ys xs
  | _, _ => false

/-- Positional equality of vector payloads (`std::vector` equality). -/
def jlistEq : JList → JList → Bool
  | .nil, .nil => true
  | .cons x xs, .cons y ys => jsonEq x y && jlistEq xs ys
  | _, _ => false

/-- Each entry of the first list has a `jsonEq`-equal entry in the
second list under the same key. -/
def jmapSub : JMap → JMap → Bool
  | .nil, _ => true
  | .cons k v rest, ys =>
      (match lookupJM k ys with
       | some w => jsonEq v w
       | none => false) && jmapSub rest ys

end

mutual

/-- Well-formedness of a tree: every struct payload anywhere has unique
keys, which is the `std::map` class invariant of the C++ data model. -/
def nodeWF : JsonNode → Bool
  | .jarr xs _ _ => jlistWF xs
  | .jobj xs _ _ => distinctJM xs && jmapWF xs
  | _ => true

/-- Well-formedness of every element of a vector payload. -/
def jlistWF : JList → Bool
  | .nil => true
  | .cons x t => nodeWF x && jlistWF t

/-- Well-formedness of every value of a struct payload. -/
def jmapWF : JMap → Bool
  | .nil => true
  | .cons _ v t => nodeWF v && jmapWF t

end

mutual

/-- Erase `meta` and `flags` everywhere in a tree, leaving exactly the
type tags and payloads; two nodes have identical payloads in the sense
of the spec iff their `stripMeta` images are identical. -/
def stripMeta : JsonNode → JsonNode
  | .jnull _ _ => .jnull "" []
  | .jbool b _ _ => .jbool b "" []
  | .jfloat q _ _ => .jfloat q "" []
  | .jstr s _ _ => .jstr s "" []
  | .jint i _ _ => .jint i "" []
  | .jarr xs _ _ => .jarr (stripL xs) "" []
  | .jobj xs _ _ => .jobj (stripM xs) "" []

/-- `stripMeta` on every element of a vector payload. -/
def stripL : JList → JList
  | .nil => .nil
  | .cons x t => .cons (stripMeta x) (stripL t)

/-- `stripMeta` on every value of a struct payload. -/
def stripM : JMap → JMap
  | .nil => .nil
  | .cons k v t => .cons k (stripMeta v) (stripM t)

end

mutual

/-- Size measure used for strong induction over trees. -/
def sizeJ : JsonNode → Nat
  | .jarr xs _ _ => sizeL xs + 1
  | .jobj xs _ _ => sizeM xs + 1
  | _ => 1

/-- Size measure of a vector payload. -/
def sizeL : JList → Nat
  | .nil => 0
  | .cons x t => sizeJ x + sizeL t + 1

/-- Size measure of a struct payload. -/
def sizeM : JMap → Nat
  | .nil => 0
  | .cons _ v t => sizeJ v + sizeM t + 1

end

/-- Modelled from the spec: IEEE-754 binary64 rounding of a natural
number to the nearest value with a 53-bit significand (round half to
even), the rounding performed by the C++ widening `double(si64)` used by
the const accessor `Float()` on an Integer node.  Values up to `2 ^ 53`
are exact. -/
def roundSigNat (n : Nat) : Nat :=
  if n ≤ 2 ^ 53 then n
  else
    let e := n.log2 - 52
    let q := n / 2 ^ e
    let r := n % 2 ^ e
    let half := 2 ^ (e - 1)
    (if half < r || (r == half && q % 2 == 1) then q + 1 else q) * 2 ^ e

/-- Modelled from the spec: the numeric value of an `si64` widened to a
C++ `double`, as performed by the const accessor `Float()` on an
Integer-tagged node (round to nearest, ties to even). -/
def doubleOfInt (i : Int) : ℚ :=
  if 0 ≤ i then ((roundSigNat i.toNat : Nat) : ℚ)
  else -((roundSigNat (-i).toNat : Nat) : ℚ)

/-- Truncation of a rational toward zero, the behaviour of the C++
float-to-integer cast on in-range values. -/
def ratTrunc (q : ℚ) : Int := Int.tdiv q.num (q.den : Int)

/-- The C++ cast `(int)` applied to a double: truncation toward zero,
defined (`some`) only when the truncated value fits a 32-bit int. -/
def cIntCast (q : ℚ) : Option Int :=
  let t := ratTrunc q
  if -(2 ^ 31) ≤ t ∧ t < 2 ^ 31 then some t else none

/-- The C++ cast `si64(double)`: truncation toward zero, defined
(`some`) only when the truncated value fits a signed 64-bit int. -/
def cInt64Cast (q : ℚ) : Option Int :=
  let t := ratTrunc q
  if -(2 ^ 63) ≤ t ∧ t < 2 ^ 63 then some t else none

/-- Modelled from the spec: the const accessor `JsonNode::Float()`
(body not in the source).  Returns the payload of a Float-tagged node;
additionally accepts an Integer-tagged node, widening it to double; any
other tag is a fatal contract violation, modelled as `none`. -/
def FloatC : JsonNode → Option ℚ
  | .jfloat q _ _ => some q
  | .jint i _ _ => some (doubleOfInt i)
  | _ => none

/-- Modelled from the spec: the const accessor `JsonNode::Integer()`
(body not in the source); only an Integer-tagged node is allowed. -/
def IntegerC : JsonNode → Option Int
  | .jint i _ _ => some i
  | _ => none

/-- Modelled from the spec: the const accessor `JsonNode::String()`
(body not in the source); only a String-tagged node is allowed. -/
def StringC : JsonNode → Option String
  | .jstr s _ _ => some s
  | _ => none

/-- Modelled from the spec: the const accessor `JsonNode::Bool()`
(body not in the source); only a Bool-tagged node is allowed. -/
def BoolC : JsonNode → Option Bool
  | .jbool b _ _ => some b
  | _ => none

/-- Modelled from the spec: the const accessor `JsonNode::Vector()`
(body not in the source); only a Vector-tagged node is allowed. -/
def VectorC : JsonNode → Option JList
  | .jarr xs _ _ => some xs
  | _ => none

/-- Modelled from the spec: the const accessor `JsonNode::Struct()`
(body not in the source); only a Struct-tagged node is allowed. -/
def StructC : JsonNode → Option JMap
  | .jobj xs _ _ => some xs
  | _ => none

/-- Embedding of `JsonDetail::JsonConvImpl<T, 1>::convertImpl` (enum or
class target), which is in the source: `T((int)node.Float())`.  The
constructed value is determined by the produced machine int, so the
embedding returns that int; a mismatched tag (`Float()` violation) or an
out-of-int-range double yields `none`. -/
def convertImplEnum (node : JsonNode) : Option Int :=
  (FloatC node).bind cIntCast

/-- Embedding of `JsonDetail::JsonConvImpl<T, 0>::convertImpl`
instantiated at the arithmetic target `si64`, which is in the source:
`si64(node.Float())` - note the route through `Float()`, not through
`Integer()`. -/
def convertToInt64 (node : JsonNode) : Option Int :=
  (FloatC node).bind cInt64Cast

/-- A node pruned by `intersect` under `pruneEmpty`: Null or an empty
struct ("a resulting empty/Null child is omitted"). -/
def isEmptyOrNull : JsonNode → Bool
  | .jnull _ _ => true
  | .jobj .nil _ _ => true
  | _ => false

/-- Modelled from the spec and the header comment of
`JsonNode::TryBoolFromString` (body not in the source): a Bool node
yields its value with success; a String node yields the recognized
truthy/falsy token value with success; everything else reports failure
and returns false.  Result is the pair (returned bool, success flag). -/
def TryBoolFromString : JsonNode → Bool × Bool
  | .jbool b _ _ => (b, true)
  | .jstr s _ _ =>
      if s = "true" then (true, true)
      else if s = "false" then (false, true)
      else (false, false)
  | _ => (false, false)

/-- Parse a pointer segment as a non-negative base-10 vector index:
digits accumulated left to right, `none` on an empty or non-numeric
segment. -/
def decDigitsAux : List Char → Nat → Option Nat
  | [], acc => some acc
  | c :: rest, acc =>
      if c.isDigit then decDigitsAux rest (acc * 10 + (c.toNat - 48)) else none

/-- Index parser for `resolvePointer` vector segments. -/
def parseIndex (s : String) : Option Nat :=
  match s.data with
  | [] => none
  | c :: rest => decDigitsAux (c :: rest) 0

/-- Modelled from the spec: one resolution step per slash-separated
segment of `JsonNode::resolvePointer` (body not in the source): a Struct
consumes the segment as a key, failing when absent; a Vector consumes it
as a non-negative base-10 index, failing when non-numeric or out of
range; any other node fails on a remaining segment; the empty segment
list resolves to the node itself. -/
def resolveSegs : List String → JsonNode → Option JsonNode
  | [], n => some n
  | seg :: rest, .jobj m _ _ =>
      match lookupJM seg m with
      | some v => resolveSegs rest v
      | none => none
  | seg :: rest, .jarr xs _ _ =>
      match parseIndex seg with
      | some i =>
          match getJL xs i with
          | some v => resolveSegs rest v
          | none => none
      | none => none
  | _ :: _, _ => none

/-- Split the character list after the leading slash into segments. -/
def splitSlashAux : List Char → List Char → List String
  | [], acc => [String.mk acc.reverse]
  | c :: rest, acc =>
      if c = '/' then String.mk acc.reverse :: splitSlashAux rest []
      else splitSlashAux rest (c :: acc)

/-- Modelled from the spec: the immutable `JsonNode::resolvePointer`
(body not in the source).  An empty path resolves to the node itself;
otherwise the path must start with a slash and its slash-separated
segments are consumed by `resolveSegs`; failure is `none`. -/
def resolvePointer (n : JsonNode) (path : String) : Option JsonNode :=
  match path.data with
  | [] => some n
  | c :: rest => if c = '/' then resolveSegs (splitSlashAux rest []) n else none

namespace JsonUtils

mutual

/-- Modelled from the spec: `JsonUtils::merge` (body not in the source),
folding `source` into `dest`.  A Null source deletes the destination
position (cleared to Null at the root) unless `ignoreOverride`
suppresses the tombstone; two Structs merge key-wise, a Null source
entry erasing the destination entry; two Vectors merge positionally
with the longer tail kept; a source subtree carrying the override flag
replaces the destination wholesale instead of recursing (unless
`ignoreOverride`); any other combination replaces wholesale.  `copyMeta`
decides whether the source meta overwrites the destination meta. -/
def merge : JsonNode → JsonNode → Bool → Bool → JsonNode
  | dest, .jnull _ _, io, _ =>
      if io then dest else JsonNode.jnull (metaOf dest) (flagsOf dest)
  | dest, .jobj sm smeta sflags, io, cm =>
      match dest with
      | .jobj dm dmeta dflags =>
          if !io && sflags.contains "override" then .jobj sm smeta sflags
          else .jobj (mergeEntries dm sm io) (if cm then smeta else dmeta) dflags
      | _ => .jobj sm smeta sflags
  | dest, .jarr sv smeta sflags, io, cm =>
      match dest with
      | .jarr dv dmeta dflags =>
          if !io && sflags.contains "override" then .jarr sv smeta sflags
          else .jarr (mergeVec dv sv io) (if cm then smeta else dmeta) dflags
      | _ => .jarr sv smeta sflags
  | _, s, _, _ => s

/-- Key-wise struct merging: each source entry is folded into the
destination entry list in order; a Null source entry erases the key
(unless `ignoreOverride`), any other entry is merged into the existing
value (a missing key being materialised as Null first). -/
def mergeEntries : JMap → JMap → Bool → JMap
  | dm, .nil, _ => dm
  | dm, .cons k v rest, io =>
      mergeEntries
        (if isNullData v && !io then eraseJM k dm
         else setJM k (merge (getDJM k dm) v io false) dm)
        rest io

/-- Positional vector merging; the longer side's tail is kept. -/
def mergeVec : JList → JList → Bool → JList
  | dv, .nil, _ => dv
  | .nil, sv, _ => sv
  | .cons d dt, .cons s st, io => .cons (merge d s io false) (mergeVec dt st io)

end

/-- Null tombstones for keys of the base entry list missing from the
node entry list (the explicit deletions emitted by `difference`). -/
def deletedJM : JMap → JMap → JMap
  | .nil, _ => .nil
  | .cons k _ t, nm =>
      if keyMemJM k nm then deletedJM t nm
      else .cons k nullNode (deletedJM t nm)

mutual

/-- Modelled from the spec: `JsonUtils::difference` (body not in the
source), the patch node minus base.  For two Structs: a key of base
absent from node yields an explicit Null entry, a key with equal values
is omitted, a differing key yields the recursive difference, a key only
in node is kept; for any other shape the difference is Null when the
nodes are equal and node itself otherwise. -/
def difference : JsonNode → JsonNode → JsonNode
  | .jobj nm _ _, .jobj bm _ _ =>
      JsonNode.jobj (appendJM (diffEntries nm bm) (deletedJM bm nm)) "" []
  | n, b => if jsonEq n b then nullNode else n

/-- Struct entries of the difference contributed by the node side. -/
def diffEntries : JMap → JMap → JMap
  | .nil, _ => .nil
  | .cons k v rest, bm =>
      match lookupJM k bm with
      | none => .cons k v (diffEntries rest bm)
      | some w =>
          if jsonEq v w then diffEntries rest bm
          else .cons k (difference v w) (diffEntries rest bm)

end

mutual

/-- Modelled from the spec: `JsonUtils::intersect` (body not in the
source), the common structure of two nodes.  Two Structs intersect
recursively on the keys present in both, a resulting empty/Null child
being omitted when `pruneEmpty`; any other shape yields the shared value
when the nodes are equal and Null otherwise (in particular for any type
mismatch). -/
def intersect : JsonNode → JsonNode → Bool → JsonNode
  | .jobj am _ _, .jobj bm _ _, pe => JsonNode.jobj (interEntries am bm pe) "" []
  | a, b, _ => if jsonEq a b then a else nullNode

/-- Struct entries of the intersection: keys present in both sides. -/
def interEntries : JMap → JMap → Bool → JMap
  | .nil, _, _ => .nil
  | .cons k v rest, bm, pe =>
      match lookupJM k bm with
      | none => interEntries rest bm pe
      | some w =>
          if pe && isEmptyOrNull (intersect v w pe) then interEntries rest bm pe
          else .cons k (intersect v w pe) (interEntries rest bm pe)

end

end JsonUtils

mutual

/-- Modelled from the spec: a schema document as far as the normalizer
and validator read one - an unconstrained position, or an object schema
listing fields.  The schema registry is taken as a fixed external
parameter: schemas are passed directly. -/
inductive JSchema : Type where
  | any
  | object (fields : SFields)

/-- A schema object's field list: name, required marker, declared
default (a Null default meaning no declared default, as in the engine's
schema documents), and the field's sub-schema. -/
inductive SFields : Type where
  | nil
  | cons (name : String) (required : Bool) (deflt : JsonNode)
      (sub : JSchema) (tail : SFields)

end

/-- Lookup of a field by name in a schema object's field list. -/
def lookupSF (k : String) : SFields → Option (Bool × JsonNode × JSchema)
  | .nil => none
  | .cons name req d sub t =>
      if name = k then some (req, d, sub) else lookupSF k t

/-- Field-name membership in a schema object's field list. -/
def memSF (k : String) : SFields → Bool
  | .nil => false
  | .cons name _ _ _ t => if name = k then true else memSF k t

/-- Field-name uniqueness of a schema object's field list. -/
def distinctSF : SFields → Bool
  | .nil => true
  | .cons name _ _ _ t => !memSF name t && distinctSF t

/-- Every required field of the list is present in the entry list. -/
def requiredPresent : SFields → JMap → Bool
  | .nil, _ => true
  | .cons name req _ _ t, entries =>
      (!req || keyMemJM name entries) && requiredPresent t entries

/-- Every field of the list (required or not) is present in the entry
list ("supplies every field"). -/
def allPresent : SFields → JMap → Bool
  | .nil, _ => true
  | .cons name _ _ _ t, entries => keyMemJM name entries && allPresent t entries

mutual

/-- Modelled from the spec: `JsonUtils::validate` (body not in the
source), restricted to what the normalizer claims rely on: an `any`
schema accepts everything; an object schema requires a Struct whose
required fields are all present and whose entries each validate against
the sub-schema of the field of the same name (unknown keys are
unconstrained). -/
def validate : JsonNode → JSchema → Bool
  | _, .any => true
  | .jobj entries _ _, .object fields =>
      requiredPresent fields entries && validateEntries entries fields
  | _, .object _ => false

/-- Validation of each struct entry against its field's sub-schema. -/
def validateEntries : JMap → SFields → Bool
  | .nil, _ => true
  | .cons k v rest, fields =>
      (match lookupSF k fields with
       | none => true
       | some (_, _, sub) => validate v sub) && validateEntries rest fields

end

mutual

/-- The tree supplies every schema field, recursively (the
schema-completeness hypothesis of the round-trip claim). -/
def suppliesAll : JsonNode → JSchema → Bool
  | _, .any => true
  | .jobj entries _ _, .object fields =>
      allPresent fields entries && suppliesEntries entries fields
  | _, .object _ => false

/-- Schema-completeness of each struct entry. -/
def suppliesEntries : JMap → SFields → Bool
  | .nil, _ => true
  | .cons k v rest, fields =>
      (match lookupSF k fields with
       | none => true
       | some (_, _, sub) => suppliesAll v sub) && suppliesEntries rest fields

end

mutual

/-- Well-formedness of a schema: unique field names, well-formed default
trees, recursively well-formed sub-schemas. -/
def schemaWF : JSchema → Bool
  | .any => true
  | .object fields => distinctSF fields && fieldsWF fields

/-- Well-formedness of each field of a schema object. -/
def fieldsWF : SFields → Bool
  | .nil => true
  | .cons _ _ d sub t => nodeWF d && schemaWF sub && fieldsWF t

end

mutual

/-- Every field of the schema that declares a default is marked
required, recursively (the amendment hypothesis of the minimize /
maximize round trip). -/
def defaultsRequired : JSchema → Bool
  | .any => true
  | .object fields => defaultsRequiredF fields

/-- Field-wise check of `defaultsRequired`. -/
def defaultsRequiredF : SFields → Bool
  | .nil => true
  | .cons _ req d sub t =>
      (isNullData d || req) && defaultsRequired sub && defaultsRequiredF t

end

mutual

/-- Modelled from the spec: `JsonUtils::minimize` (body not in the
source): recursively removes any value equal to the schema's declared
default for its position; other entries are minimized against their
field's sub-schema; unknown keys and non-Struct positions pass through
unchanged. -/
def minimize : JsonNode → JSchema → JsonNode
  | n, .any => n
  | .jobj entries m f, .object fields =>
      JsonNode.jobj (minEntries entries fields) m f
  | n, .object _ => n

/-- Entry-wise minimization against the schema's field list. -/
def minEntries : JMap → SFields → JMap
  | .nil, _ => .nil
  | .cons k v rest, fields =>
      match lookupSF k fields with
      | none => .cons k v (minEntries rest fields)
      | some (_, d, sub) =>
          if !isNullData d && jsonEq v d then minEntries rest fields
          else .cons k (minimize v sub) (minEntries rest fields)

end

/-- Defaults inserted by `maximize`: for each required field with a
declared default that is missing from the entry list, an entry holding
the default. -/
def missingDefaults : SFields → JMap → JMap
  | .nil, _ => .nil
  | .cons name req d _ t, entries =>
      if req && !isNullData d && !keyMemJM name entries then
        .cons name d (missingDefaults t entries)
      else missingDefaults t entries

mutual

/-- Modelled from the spec: `JsonUtils::maximize` (body not in the
source): recursively inserts the schema's declared default value for any
required field missing from the node; present entries are maximized
against their field's sub-schema; unknown keys and non-Struct positions
pass through unchanged. -/
def maximize : JsonNode → JSchema → JsonNode
  | n, .any => n
  | .jobj entries m f, .object fields =>
      JsonNode.jobj (appendJM (maxEntries entries fields) (missingDefaults fields entries)) m f
  | n, .object _ => n

/-- Entry-wise maximization against the schema's field list. -/
def maxEntries : JMap → SFields → JMap
  | .nil, _ => .nil
  | .cons k v rest, fields =>
      match lookupSF k fields with
      | none => .cons k v (maxEntries rest fields)
      | some (_, _, sub) => .cons k (maximize v sub) (maxEntries rest fields)

end

mutual

/-- Scalar-struct trees: a Struct all of whose values are non-Null,
non-Vector scalars or further such Structs (the shape on which the
merge / difference round-trip law is proved). -/
def sstree : JsonNode → Bool
  | .jobj m _ _ => sstreeJM m
  | _ => false

/-- A value inside a scalar-struct tree: a non-Null, non-Vector scalar
or a nested scalar-struct tree. -/
def sstreeVal : JsonNode → Bool
  | .jnull _ _ => false
  | .jarr _ _ _ => false
  | .jobj m _ _ => sstreeJM m
  | _ => true

/-- Entry list of a scalar-struct tree. -/
def sstreeJM : JMap → Bool
  | .nil => true
  | .cons _ v t => sstreeVal v && sstreeJM t

end

mutual

/-- No struct value anywhere in the tree is Null or an empty struct, so
`intersect` under `pruneEmpty` never prunes (the amendment hypothesis of
the intersect idempotence claim). -/
def noPrune : JsonNode → Bool
  | .jobj m _ _ => noPruneJM m
  | _ => true

/-- Entry-wise check of `noPrune`. -/
def noPruneJM : JMap → Bool
  | .nil => true
  | .cons _ v t => !isEmptyOrNull v && noPrune v && noPruneJM t

end

/-- Concrete tree of the spec's pointer-resolution scenario: a struct
holding the key items mapped to a one-element vector whose element is a
struct mapping the key name to the string sword. -/
def exampleInventory : JsonNode :=
  JsonNode.jobj
    (JMap.ofList
      [("items",
        JsonNode.jarr
          (JList.ofList
            [JsonNode.jobj (JMap.ofList [("name", JsonNode.jstr "sword" "" [])]) "" []])
          "" [])])
    "" []

theorem jmapIndOn {P : JMap → Prop} (hnil : P .nil)
    (hcons : ∀ k v t, P t → P (.cons k v t)) : ∀ m, P m
  | .nil => hnil
  | .cons k v t => hcons k v t (jmapIndOn hnil hcons t)

theorem jlistIndOn {P : JList → Prop} (hnil : P .nil)
    (hcons : ∀ x t, P t → P (.cons x t)) : ∀ l, P l
  | .nil => hnil
  | .cons x t => hcons x t (jlistIndOn hnil hcons t)

theorem sfieldsIndOn {P : SFields → Prop} (hnil : P .nil)
    (hcons : ∀ name req d sub t, P t → P (.cons name req d sub t)) : ∀ fs, P fs
  | .nil => hnil
  | .cons name req d sub t => hcons name req d sub t (sfieldsIndOn hnil hcons t)

theorem lookupJM_eraseJM_self (k : String) (m : JMap) :
    lookupJM k (eraseJM k m) = none := by
  induction m using jmapIndOn with
  | hnil => rfl
  | hcons k2 v t ih =>
      by_cases h : k2 = k
      · simp only [eraseJM, if_pos h, ih]
      · simp only [eraseJM, if_neg h, lookupJM, ih]

theorem lookupJM_eraseJM_ne (k k2 : String) (m : JMap) (h : k2 ≠ k) :
    lookupJM k (eraseJM k2 m) = lookupJM k m := by
  induction m using jmapIndOn with
  | hnil => rfl
  | hcons k3 v t ih =>
      by_cases h3 : k3 = k2
      · subst h3
        simp [eraseJM, lookupJM, if_neg h, ih]
      · simp only [eraseJM, if_neg h3, lookupJM, ih]

theorem lookupJM_setJM_self (k : String) (v : JsonNode) (m : JMap) :
    lookupJM k (setJM k v m) = some v := by
  induction m using jmapIndOn with
  | hnil => simp [setJM, lookupJM]
  | hcons k2 v2 t ih =>
      by_cases h : k2 = k
      · simp only [setJM, if_pos h, lookupJM, if_pos h]
      · simp only [setJM, if_neg h, lookupJM, if_neg h, ih]

theorem lookupJM_setJM_ne (k k2 : String) (v : JsonNode) (m : JMap) (h : k2 ≠ k) :
    lookupJM k (setJM k2 v m) = lookupJM k m := by
  induction m using jmapIndOn with
  | hnil => simp [setJM, lookupJM, if_neg h]
  | hcons k3 v3 t ih =>
      by_cases h3 : k3 = k2
      · subst h3
        simp only [setJM, if_pos rfl, lookupJM, if_neg h]
      · simp only [setJM, if_neg h3, lookupJM, ih]

theorem keyMemJM_eq_isSome (k : String) (m : JMap) :
    keyMemJM k m = (lookupJM k m).isSome := by
  induction m using jmapIndOn with
  | hnil => rfl
  | hcons k2 v t ih =>
      by_cases h : k2 = k
      · simp [keyMemJM, lookupJM, if_pos h]
      · simp [keyMemJM, lookupJM, if_neg h, ih]

theorem lookupJM_appendJM (k : String) (xs ys : JMap) :
    lookupJM k (appendJM xs ys) =
      (match lookupJM k xs with
       | some v => some v
       | none => lookupJM k ys) := by
  induction xs using jmapIndOn with
  | hnil => rfl
  | hcons k2 v t ih =>
      by_cases h : k2 = k
      · simp [appendJM, lookupJM, if_pos h]
      · simp [appendJM, lookupJM, if_neg h, ih]

theorem keyMemJM_appendJM (k : String) (xs ys : JMap) :
    keyMemJM k (appendJM xs ys) = (keyMemJM k xs || keyMemJM k ys) := by
  induction xs using jmapIndOn with
  | hnil => rfl
  | hcons k2 v t ih =>
      by_cases h : k2 = k
      · simp [appendJM, keyMemJM, if_pos h]
      · simp [appendJM, keyMemJM, if_neg h, ih]

theorem keyMemJM_setJM (k k2 : String) (v : JsonNode) (m : JMap) :
    keyMemJM k (setJM k2 v m) = (if k2 = k then true else keyMemJM k m) := by
  by_cases h : k2 = k
  · subst h
    rw [keyMemJM_eq_isSome, lookupJM_setJM_self]
    simp
  · rw [keyMemJM_eq_isSome, lookupJM_setJM_ne _ _ _ _ h, ← keyMemJM_eq_isSome, if_neg h]

theorem keyMemJM_eraseJM (k k2 : String) (m : JMap) :
    keyMemJM k (eraseJM k2 m) = (if k2 = k then false else keyMemJM k m) := by
  by_cases h : k2 = k
  · subst h
    rw [keyMemJM_eq_isSome, lookupJM_eraseJM_self]
    simp
  · rw [keyMemJM_eq_isSome, lookupJM_eraseJM_ne _ _ _ h, ← keyMemJM_eq_isSome, if_neg h]

theorem distinctJM_setJM (k : String) (v : JsonNode) (m : JMap)
    (h : distinctJM m = true) : distinctJM (setJM k v m) = true := by
  induction m using jmapIndOn with
  | hnil => simp [setJM, distinctJM, keyMemJM]
  | hcons k2 v2 t ih =>
      simp only [distinctJM, Bool.and_eq_true, Bool.not_eq_true'] at h
      by_cases h2 : k2 = k
      · simp [setJM, if_pos h2, distinctJM, h.1, h.2]
      · simp only [setJM, if_neg h2, distinctJM, Bool.and_eq_true, Bool.not_eq_true']
        refine ⟨?_, ih h.2⟩
        rw [keyMemJM_setJM]
        simp [Ne.symm h2, h.1]

theorem distinctJM_eraseJM (k : String) (m : JMap)
    (h : distinctJM m = true) : distinctJM (eraseJM k m) = true := by
  induction m using jmapIndOn with
  | hnil => simp [eraseJM, distinctJM]
  | hcons k2 v2 t ih =>
      simp only [distinctJM, Bool.and_eq_true, Bool.not_eq_true'] at h
      by_cases h2 : k2 = k
      · rw [eraseJM, if_pos h2]
        exact ih h.2
      · simp only [eraseJM, if_neg h2, distinctJM, Bool.and_eq_true, Bool.not_eq_true']
        refine ⟨?_, ih h.2⟩
        rw [keyMemJM_eraseJM]
        simp [h.1]

theorem sizeJ_le_of_lookupJM (k : String) (m : JMap) (v : JsonNode)
    (h : lookupJM k m = some v) : sizeJ v ≤ sizeM m := by
  induction m using jmapIndOn with
  | hnil => simp [lookupJM] at h
  | hcons k2 v2 t ih =>
      by_cases h2 : k2 = k
      · rw [lookupJM, if_pos h2] at h
        cases h
        simp [sizeM]
        omega
      · rw [lookupJM, if_neg h2] at h
        have := ih h
        simp [sizeM]
        omega

theorem jmapWF_lookupJM (k : String) (m : JMap) (v : JsonNode)
    (hm : jmapWF m = true) (h : lookupJM k m = some v) : nodeWF v = true := by
  induction m using jmapIndOn with
  | hnil => simp [lookupJM] at h
  | hcons k2 v2 t ih =>
      simp only [jmapWF, Bool.and_eq_true] at hm
      by_cases h2 : k2 = k
      · rw [lookupJM, if_pos h2] at h
        cases h
        exact hm.1
      · rw [lookupJM, if_neg h2] at h
        exact ih hm.2 h

theorem one_le_sizeJ (a : JsonNode) : 1 ≤ sizeJ a := by
  cases a <;> simp [sizeJ]

theorem jmapSub_iff (xs ys : JMap) (hxs : distinctJM xs = true) :
    jmapSub xs ys = true ↔
      ∀ k v, lookupJM k xs = some v →
        ∃ w, lookupJM k ys = some w ∧ jsonEq v w = true := by
  induction xs using jmapIndOn with
  | hnil => simp [jmapSub, lookupJM]
  | hcons k1 v1 t ih =>
      simp only [distinctJM, Bool.and_eq_true, Bool.not_eq_true'] at hxs
      simp only [jmapSub, Bool.and_eq_true]
      constructor
      · rintro ⟨h1, h2⟩ k v hkv
        rw [lookupJM] at hkv
        by_cases hk : k1 = k
        · rw [if_pos hk] at hkv
          cases hkv
          cases heq : lookupJM k1 ys with
          | none => rw [heq] at h1; simp at h1
          | some w =>
              rw [heq] at h1
              subst hk
              exact ⟨w, heq, h1⟩
        · rw [if_neg hk] at hkv
          exact (ih hxs.2).mp h2 k v hkv
      · intro h
        constructor
        · obtain ⟨w, hw, he⟩ := h k1 v1 (by rw [lookupJM, if_pos rfl])
          rw [hw]
          exact he
        · refine (ih hxs.2).mpr ?_
          intro k v hkv
          refine h k v ?_
          have hk : k1 ≠ k := by
            intro hkk
            subst hkk
            rw [keyMemJM_eq_isSome, hkv] at hxs
            simp at hxs
          rw [lookupJM, if_neg hk]
          exact hkv

theorem jmapKeys_iff (ys xs : JMap) :
    jmapKeys ys xs = true ↔
      ∀ k, keyMemJM k ys = true → keyMemJM k xs = true := by
  induction ys using jmapIndOn with
  | hnil => simp [jmapKeys, keyMemJM]
  | hcons k1 v1 t ih =>
      simp only [jmapKeys, Bool.and_eq_true]
      constructor
      · rintro ⟨h1, h2⟩ k hk
        rw [keyMemJM] at hk
        by_cases hkk : k1 = k
        · subst hkk
          exact h1
        · rw [if_neg hkk] at hk
          exact ih.mp h2 k hk
      · intro h
        refine ⟨h k1 (by rw [keyMemJM, if_pos rfl]), ih.mpr ?_⟩
        intro k hk
        refine h k ?_
        rw [keyMemJM]
        by_cases hkk : k1 = k <;> simp [hkk, hk]

theorem lookupJM_stripM (k : String) (m : JMap) :
    lookupJM k (stripM m) = Option.map stripMeta (lookupJM k m) := by
  induction m using jmapIndOn with
  | hnil => rfl
  | hcons k2 v t ih =>
      by_cases h : k2 = k
      · simp [stripM, lookupJM, if_pos h]
      · simp [stripM, lookupJM, if_neg h, ih]

theorem keyMemJM_stripM (k : String) (m : JMap) :
    keyMemJM k (stripM m) = keyMemJM k m := by
  induction m using jmapIndOn with
  | hnil => rfl
  | hcons k2 v t ih =>
      by_cases h : k2 = k
      · simp [stripM, keyMemJM, if_pos h]
      · simp [stripM, keyMemJM, if_neg h, ih]

theorem jmapKeys_stripM (ys xs : JMap) :
    jmapKeys (stripM ys) (stripM xs) = jmapKeys ys xs := by
  induction ys using jmapIndOn with
  | hnil => rfl
  | hcons k v t ih => simp [stripM, jmapKeys, keyMemJM_stripM, ih]

theorem jsonEq_refl_aux :
    ∀ N a, sizeJ a ≤ N → nodeWF a = true → jsonEq a a = true := by
  intro N
  induction N with
  | zero =>
      intro a hsz _
      have := one_le_sizeJ a
      omega
  | succ N ihN =>
      intro a hsz hwf
      have listRefl : ∀ xs, sizeL xs ≤ N → jlistWF xs = true → jlistEq xs xs = true := by
        intro xs
        induction xs using jlistIndOn with
        | hnil => intro _ _; rfl
        | hcons x t ih =>
            intro hsz2 hwf2
            simp only [sizeL] at hsz2
            simp only [jlistWF, Bool.and_eq_true] at hwf2
            simp only [jlistEq, Bool.and_eq_true]
            exact ⟨ihN x (by omega) hwf2.1, ih (by omega) hwf2.2⟩
      cases a with
      | jnull m f => rfl
      | jbool b m f => simp [jsonEq]
      | jfloat q m f => simp [jsonEq]
      | jstr s m f => simp [jsonEq]
      | jint i m f => simp [jsonEq]
      | jarr xs m f =>
          simp only [sizeJ] at hsz
          simp only [nodeWF] at hwf
          simp only [jsonEq]
          exact listRefl xs (by omega) hwf
      | jobj xs m f =>
          simp only [sizeJ] at hsz
          simp only [nodeWF, Bool.and_eq_true] at hwf
          simp only [jsonEq, Bool.and_eq_true]
          constructor
          · refine (jmapSub_iff xs xs hwf.1).mpr ?_
            intro k v hkv
            have hs := sizeJ_le_of_lookupJM k xs v hkv
            exact ⟨v, hkv, ihN v (by omega) (jmapWF_lookupJM k xs v hwf.2 hkv)⟩
          · exact (jmapKeys_iff xs xs).mpr (fun k hk => hk)

theorem jsonEq_refl (a : JsonNode) (h : nodeWF a = true) : jsonEq a a = true :=
  jsonEq_refl_aux (sizeJ a) a le_rfl h

theorem jsonEq_symm_aux :
    ∀ N a b, sizeJ a ≤ N → nodeWF a = true → nodeWF b = true →
      jsonEq a b = true → jsonEq b a = true := by
  intro N
  induction N with
  | zero =>
      intro a b hsz _ _ _
      have := one_le_sizeJ a
      omega
  | succ N ihN =>
      intro a b hsz hwa hwb h
      have listSymm : ∀ xs, sizeL xs ≤ N → ∀ ys, jlistWF xs = true →
          jlistWF ys = true → jlistEq xs ys = true → jlistEq ys xs = true := by
        intro xs
        induction xs using jlistIndOn with
        | hnil =>
            intro _ ys _ _ hx
            cases ys with
            | nil => rfl
            | cons y u => simp [jlistEq] at hx
        | hcons x t ih =>
            intro hsz2 ys hwx hwy hx
            cases ys with
            | nil => simp [jlistEq] at hx
            | cons y u =>
                simp only [sizeL] at hsz2
                simp only [jlistWF, Bool.and_eq_true] at hwx hwy
                simp only [jlistEq, Bool.and_eq_true] at hx ⊢
                exact ⟨ihN x y (by omega) hwx.1 hwy.1 hx.1,
                  ih (by omega) u hwx.2 hwy.2 hx.2⟩
      cases a <;> cases b <;> try (simp [jsonEq] at h)
      case jnull.jnull => rfl
      case jbool.jbool x _ _ y _ _ => simp [jsonEq, h]
      case jfloat.jfloat x _ _ y _ _ => simp [jsonEq, h]
      case jstr.jstr x _ _ y _ _ => simp [jsonEq, h]
      case jint.jint x _ _ y _ _ => simp [jsonEq, h]
      case jarr.jarr xs _ _ ys _ _ =>
        simp only [jsonEq]
        simp only [nodeWF] at hwa hwb
        simp only [sizeJ] at hsz
        exact listSymm xs (by omega) ys hwa hwb h
      case jobj.jobj xs _ _ ys _ _ =>
        simp only [jsonEq, Bool.and_eq_true]
        simp only [nodeWF, Bool.and_eq_true] at hwa hwb
        simp only [sizeJ] at hsz
        obtain ⟨hsub, hkeys⟩ := h
        constructor
        · refine (jmapSub_iff ys xs hwb.1).mpr ?_
          intro k w hkw
          have hmem : keyMemJM k xs = true := by
            refine (jmapKeys_iff ys xs).mp hkeys k ?_
            rw [keyMemJM_eq_isSome, hkw]
            rfl
          rw [keyMemJM_eq_isSome] at hmem
          cases hkv : lookupJM k xs with
          | none => rw [hkv] at hmem; simp at hmem
          | some v =>
              obtain ⟨w2, hw2, he⟩ := (jmapSub_iff xs ys hwa.1).mp hsub k v hkv
              rw [hkw] at hw2
              cases hw2
              have hs := sizeJ_le_of_lookupJM k xs v hkv
              refine ⟨v, rfl, ihN v w (by omega)
                (jmapWF_lookupJM k xs v hwa.2 hkv)
                (jmapWF_lookupJM k ys w hwb.2 hkw) he⟩
        · refine (jmapKeys_iff xs ys).mpr ?_
          intro k hk
          rw [keyMemJM_eq_isSome] at hk
          cases hkv : lookupJM k xs with
          | none => rw [hkv] at hk; simp at hk
          | some v =>
              obtain ⟨w, hw, _⟩ := (jmapSub_iff xs ys hwa.1).mp hsub k v hkv
              rw [keyMemJM_eq_isSome, hw]
              rfl

theorem jsonEq_symm (a b : JsonNode) (ha : nodeWF a = true) (hb : nodeWF b = true)
    (h : jsonEq a b = true) : jsonEq b a = true :=
  jsonEq_symm_aux (sizeJ a) a b le_rfl ha hb h

theorem jsonEq_strip_aux :
    ∀ N a b, sizeJ a ≤ N → jsonEq (stripMeta a) (stripMeta b) = jsonEq a b := by
  intro N
  induction N with
  | zero =>
      intro a b hsz
      have := one_le_sizeJ a
      omega
  | succ N ihN =>
      intro a b hsz
      have listStrip : ∀ xs, sizeL xs ≤ N → ∀ ys,
          jlistEq (stripL xs) (stripL ys) = jlistEq xs ys := by
        intro xs
        induction xs using jlistIndOn with
        | hnil =>
            intro _ ys
            cases ys <;> simp [stripL, jlistEq]
        | hcons x t ih =>
            intro hsz2 ys
            cases ys with
            | nil => simp [stripL, jlistEq]
            | cons y u =>
                simp only [sizeL] at hsz2
                simp only [stripL, jlistEq]
                rw [ihN x y (by omega), ih (by omega) u]
      have mapStrip : ∀ xs, sizeM xs ≤ N → ∀ ys,
          jmapSub (stripM xs) (stripM ys) = jmapSub xs ys := by
        intro xs
        induction xs using jmapIndOn with
        | hnil => intro _ ys; simp [stripM, jmapSub]
        | hcons k v t ih =>
            intro hsz2 ys
            simp only [sizeM] at hsz2
            simp only [stripM, jmapSub]
            rw [lookupJM_stripM, ih (by omega) ys]
            cases hkv : lookupJM k ys with
            | none => rfl
            | some w =>
                simp only [Option.map]
                rw [ihN v w (by omega)]
      cases a <;> cases b <;> try (simp [stripMeta, jsonEq])
      case jarr.jarr xs _ _ ys _ _ =>
        simp only [sizeJ] at hsz
        exact listStrip xs (by omega) ys
      case jobj.jobj xs _ _ ys _ _ =>
        simp only [sizeJ] at hsz
        rw [mapStrip xs (by omega) ys, jmapKeys_stripM]

theorem jsonEq_strip (a b : JsonNode) :
    jsonEq (stripMeta a) (stripMeta b) = jsonEq a b :=
  jsonEq_strip_aux (sizeJ a) a b le_rfl

theorem nodeWF_stripMeta_aux :
    ∀ N a, sizeJ a ≤ N → nodeWF (stripMeta a) = nodeWF a := by
  intro N
  induction N with
  | zero =>
      intro a hsz
      have := one_le_sizeJ a
      omega
  | succ N ihN =>
      intro a hsz
      have hlist : ∀ xs, sizeL xs ≤ N → jlistWF (stripL xs) = jlistWF xs := by
        intro xs
        induction xs using jlistIndOn with
        | hnil => intro _; rfl
        | hcons x t ih =>
            intro hsz2
            simp only [sizeL] at hsz2
            simp only [stripL, jlistWF]
            rw [ihN x (by omega), ih (by omega)]
      have hmapw : ∀ xs, sizeM xs ≤ N → jmapWF (stripM xs) = jmapWF xs := by
        intro xs
        induction xs using jmapIndOn with
        | hnil => intro _; rfl
        | hcons k v t ih =>
            intro hsz2
            simp only [sizeM] at hsz2
            simp only [stripM, jmapWF]
            rw [ihN v (by omega), ih (by omega)]
      have hdist : ∀ xs, distinctJM (stripM xs) = distinctJM xs := by
        intro xs
        induction xs using jmapIndOn with
        | hnil => rfl
        | hcons k v t ih => simp [stripM, distinctJM, keyMemJM_stripM, ih]
      cases a <;> try rfl
      case jarr xs _ _ =>
        simp only [sizeJ] at hsz
        simp only [stripMeta, nodeWF]
        exact hlist xs (by omega)
      case jobj xs _ _ =>
        simp only [sizeJ] at hsz
        simp only [stripMeta, nodeWF]
        rw [hmapw xs (by omega), hdist xs]

theorem nodeWF_stripMeta (a : JsonNode) : nodeWF (stripMeta a) = nodeWF a :=
  nodeWF_stripMeta_aux (sizeJ a) a le_rfl

theorem isEmptyOrNull_of_jsonEq (a b : JsonNode) (h : jsonEq a b = true) :
    isEmptyOrNull a = isEmptyOrNull b := by
  cases a <;> cases b <;> try (simp [jsonEq] at h)
  case jnull.jnull => rfl
  case jbool.jbool => rfl
  case jfloat.jfloat => rfl
  case jstr.jstr => rfl
  case jint.jint => rfl
  case jarr.jarr => rfl
  case jobj.jobj xs _ _ ys _ _ =>
    cases xs with
    | nil =>
        cases ys with
        | nil => rfl
        | cons ky vy u =>
            have := h.2
            simp [jmapKeys, keyMemJM] at this
    | cons kx vx t =>
        cases ys with
        | nil =>
            have := h.1
            simp [jmapSub, lookupJM] at this
        | cons ky vy u => rfl

theorem roundSigNat_small (n : Nat) (h : n ≤ 2 ^ 53) : roundSigNat n = n := by
  unfold roundSigNat
  rw [if_pos h]

theorem doubleOfInt_exact (i : Int) (h : i.natAbs ≤ 2 ^ 53) :
    doubleOfInt i = (i : ℚ) := by
  unfold doubleOfInt
  by_cases h0 : 0 ≤ i
  · rw [if_pos h0, roundSigNat_small _ (by omega)]
    have : ((i.toNat : Nat) : ℚ) = ((i.toNat : Int) : ℚ) := by push_cast; ring
    rw [this, Int.toNat_of_nonneg h0]
  · rw [if_neg h0, roundSigNat_small _ (by omega)]
    have h1 : (0 : Int) ≤ -i := by omega
    have : (((-i).toNat : Nat) : ℚ) = (((-i).toNat : Int) : ℚ) := by push_cast; ring
    rw [this, Int.toNat_of_nonneg h1]
    push_cast
    ring

theorem ratTrunc_intCast (i : Int) : ratTrunc ((i : Int) : ℚ) = i := by
  simp [ratTrunc]

/-- C5: structural equality of two nodes compares only the type tag and
payload, deeply and recursively, and is unaffected by the meta and flags
fields: any two well-formed nodes whose payloads are identical after
erasing meta and flags everywhere compare equal. -/
theorem C5_equality_ignores_meta_and_flags (a b : JsonNode)
    (_ha : nodeWF a = true) (hb : nodeWF b = true)
    (h : stripMeta a = stripMeta b) : jsonEq a b = true := by
  rw [← jsonEq_strip a b, h, jsonEq_strip b b]
  exact jsonEq_refl b hb

/-- Witness for C5: two integer nodes with the same payload but
different meta and flags compare equal. -/
theorem C5_witness :
    jsonEq (JsonNode.jint 1 "fragmentA" ["override"]) (JsonNode.jint 1 "fragmentB" []) = true :=
  C5_equality_ignores_meta_and_flags
    (JsonNode.jint 1 "fragmentA" ["override"]) (JsonNode.jint 1 "fragmentB" [])
    rfl rfl rfl

/-- C10: for every node, TryBoolFromString reports its outcome through
the success component and returns false whenever success is false, so a
caller never observes a truthy result from an unrecognized or non-string
value. -/
theorem C10_trybool_false_on_failure (n : JsonNode)
    (h : (TryBoolFromString n).2 = false) : (TryBoolFromString n).1 = false := by
  cases n with
  | jstr s m f =>
      by_cases h1 : s = "true"
      · simp [TryBoolFromString, h1] at h
      · by_cases h2 : s = "false" <;> simp [TryBoolFromString, h1, h2]
  | jbool b m f => simp [TryBoolFromString] at h
  | jnull m f => rfl
  | jfloat q m f => rfl
  | jint i m f => rfl
  | jarr xs m f => rfl
  | jobj xs m f => rfl

/-- Witness for C10 at an Integer node: success is false and the
returned bool is false. -/
theorem C10_witness :
    (TryBoolFromString (JsonNode.jint 1 "" [])).2 = false ∧
    (TryBoolFromString (JsonNode.jint 1 "" [])).1 = false :=
  ⟨rfl, C10_trybool_false_on_failure (JsonNode.jint 1 "" []) rfl⟩

/-- C6: the const accessor Float() returns the stored number on a
Float-tagged node and the widened value on an Integer-tagged node (an
Integer node holding 5 yields 5.0, and the widening is exact whenever
the magnitude is at most 2 to the 53); Integer() succeeds exactly on an
Integer-tagged node; any other const accessor on a mismatched type tag
is a fatal contract violation (modelled as none), e.g. String() on an
Integer node, and each accessor's error branch is unreachable exactly
under the matching-tag precondition. -/
theorem C6_const_accessor_contract :
    (∀ (q : ℚ) (m : String) (f : List String), FloatC (JsonNode.jfloat q m f) = some q) ∧
    (∀ (i : Int) (m : String) (f : List String),
        FloatC (JsonNode.jint i m f) = some (doubleOfInt i)) ∧
    (∀ (i : Int) (m : String) (f : List String), i.natAbs ≤ 2 ^ 53 →
        FloatC (JsonNode.jint i m f) = some ((i : Int) : ℚ)) ∧
    FloatC (JsonNode.jint 5 "" []) = some 5 ∧
    (∀ n : JsonNode, (IntegerC n).isSome = true ↔ ∃ i m f, n = JsonNode.jint i m f) ∧
    (∀ (i : Int) (m : String) (f : List String), StringC (JsonNode.jint i m f) = none) ∧
    (∀ n : JsonNode, (FloatC n).isSome = true ↔
        ((∃ q m f, n = JsonNode.jfloat q m f) ∨ (∃ i m f, n = JsonNode.jint i m f))) ∧
    (∀ n : JsonNode, (StringC n).isSome = true ↔ ∃ s m f, n = JsonNode.jstr s m f) ∧
    (∀ n : JsonNode, (BoolC n).isSome = true ↔ ∃ b m f, n = JsonNode.jbool b m f) ∧
    (∀ n : JsonNode, (VectorC n).isSome = true ↔ ∃ xs m f, n = JsonNode.jarr xs m f) ∧
    (∀ n : JsonNode, (StructC n).isSome = true ↔ ∃ xs m f, n = JsonNode.jobj xs m f) := by
  refine ⟨fun q m f => rfl, fun i m f => rfl, ?_, by decide, ?_, fun i m f => rfl,
      ?_, ?_, ?_, ?_, ?_⟩
  · intro i m f h
    rw [show FloatC (JsonNode.jint i m f) = some (doubleOfInt i) from rfl,
      doubleOfInt_exact i h]
  · intro n
    cases n <;> simp [IntegerC]
  · intro n
    cases n <;> simp [FloatC]
  · intro n
    cases n <;> simp [StringC]
  · intro n
    cases n <;> simp [BoolC]
  · intro n
    cases n <;> simp [VectorC]
  · intro n
    cases n <;> simp [StructC]

/-- Witness for C6: the widening conjunct applied at the Integer node
holding 5 yields exactly the rational 5, and Integer() succeeds there. -/
theorem C6_witness :
    FloatC (JsonNode.jint 5 "" []) = some (((5 : Int) : Int) : ℚ) ∧
    (IntegerC (JsonNode.jint 5 "" [])).isSome = true :=
  ⟨C6_const_accessor_contract.2.2.1 5 "" [] (by norm_num),
   (C6_const_accessor_contract.2.2.2.2.1 (JsonNode.jint 5 "" [])).mpr ⟨5, "", [], rfl⟩⟩

/-- C9: convertTo with an enum or class target constructs the result as
T of the int cast of node.Float(), so the value is routed through the
floating-point accessor and truncated toward zero to a machine int
before the target is constructed: a mismatched tag fails (Float()
contract), a Float node holding 5/2 yields 2 and -5/2 yields -2, and a
double whose truncation falls outside the 32-bit int range is not
representable through this path (modelled as none). -/
theorem C9_enum_conversion_truncates :
    (∀ n : JsonNode, convertImplEnum n = (FloatC n).bind cIntCast) ∧
    (∀ n : JsonNode, FloatC n = none → convertImplEnum n = none) ∧
    (∀ (n : JsonNode) (q : ℚ), FloatC n = some q → convertImplEnum n = cIntCast q) ∧
    convertImplEnum (JsonNode.jfloat (mkRat 5 2) "" []) = some 2 ∧
    convertImplEnum (JsonNode.jfloat (-(mkRat 5 2)) "" []) = some (-2) ∧
    convertImplEnum (JsonNode.jfloat (2147483648 : ℚ) "" []) = none ∧
    convertImplEnum (JsonNode.jfloat (-(2147483649 : ℚ)) "" []) = none := by
  refine ⟨fun n => rfl, ?_, ?_, by decide, by decide, by decide, by decide⟩
  · intro n h
    simp [convertImplEnum, h]
  · intro n q h
    simp [convertImplEnum, h]

/-- Witness for C9: the Float-routing conjunct applied at a concrete
Float node. -/
theorem C9_witness :
    convertImplEnum (JsonNode.jfloat (mkRat 7 2) "" []) = cIntCast (mkRat 7 2) :=
  C9_enum_conversion_truncates.2.2.1 (JsonNode.jfloat (mkRat 7 2) "" []) (mkRat 7 2) rfl

theorem log2_9007199254740993 : Nat.log2 9007199254740993 = 53 := by
  rw [Nat.log2_eq_log_two]
  exact Nat.log_eq_of_pow_le_of_lt_pow (by norm_num) (by norm_num)

theorem roundSigNat_9007199254740993 :
    roundSigNat 9007199254740993 = 9007199254740992 := by
  unfold roundSigNat
  rw [if_neg (by norm_num), log2_9007199254740993]
  norm_num

theorem doubleOfInt_pow53succ :
    doubleOfInt (2 ^ 53 + 1) = ((9007199254740992 : Int) : ℚ) := by
  unfold doubleOfInt
  rw [if_pos (by norm_num)]
  have ht : ((2 ^ 53 + 1 : Int)).toNat = 9007199254740993 := by
    have : ((2 ^ 53 + 1 : Int)) = ((9007199254740993 : Nat) : Int) := by norm_num
    rw [this, Int.toNat_natCast]
  rw [ht, roundSigNat_9007199254740993]
  norm_cast

theorem cInt64Cast_intCast (i : Int) (h1 : -(2 ^ 63) ≤ i) (h2 : i < 2 ^ 63) :
    cInt64Cast ((i : Int) : ℚ) = some i := by
  unfold cInt64Cast
  rw [ratTrunc_intCast]
  rw [if_pos ⟨h1, h2⟩]

theorem convertToInt64_jint (i : Int) (m : String) (f : List String) :
    convertToInt64 (JsonNode.jint i m f) = cInt64Cast (doubleOfInt i) := by
  simp [convertToInt64, FloatC]

/-- C7 counterexample: convertTo does not read a 64-bit integer target
through the integer accessor, and the exact stored integer value is not
always preserved.  First, a Float node holding 5/2 converts to the
64-bit integer 2 even though Integer() on that node is a contract
violation, so the conversion is routed through Float(), not Integer().
Second, the Integer node holding 2 to the 53 plus 1 converts to
2 to the 53: the detour through double loses the exact value. -/
theorem C7_counterexample :
    convertToInt64 (JsonNode.jfloat (mkRat 5 2) "" []) = some 2 ∧
    IntegerC (JsonNode.jfloat (mkRat 5 2) "" []) = none ∧
    convertToInt64 (JsonNode.jint (2 ^ 53 + 1) "" []) = some (2 ^ 53) ∧
    ((2 ^ 53 : Int) ≠ 2 ^ 53 + 1) := by
  refine ⟨by decide, rfl, ?_, by norm_num⟩
  rw [convertToInt64_jint, doubleOfInt_pow53succ,
    cInt64Cast_intCast _ (by norm_num) (by norm_num)]
  norm_num

/-- C7 amended: convertTo with a scalar numeric, enum, or class target
reads the node exclusively via Float() and casts (there is no route
through Integer() in JsonConvImpl); in particular a 64-bit integer
target is converted through double, so the exact stored integer value is
preserved exactly when its magnitude is at most 2 to the 53 (the double
significand width); a node on which Float() is a contract violation
fails. -/
theorem C7_amended_int64_via_float :
    (∀ n : JsonNode, convertToInt64 n = (FloatC n).bind cInt64Cast) ∧
    (∀ n : JsonNode, FloatC n = none → convertToInt64 n = none) ∧
    (∀ (i : Int) (m : String) (f : List String), i.natAbs ≤ 2 ^ 53 →
        convertToInt64 (JsonNode.jint i m f) = some i) := by
  refine ⟨fun n => rfl, ?_, ?_⟩
  · intro n h
    simp [convertToInt64, h]
  · intro i m f h
    have hb : i.natAbs ≤ 9007199254740992 := by
      have : (2 : Nat) ^ 53 = 9007199254740992 := by norm_num
      omega
    rw [convertToInt64_jint, doubleOfInt_exact i h,
      cInt64Cast_intCast i (by norm_num; omega) (by norm_num; omega)]

/-- Witness for C7 amended: an Integer node holding 5 converts to the
64-bit integer 5 exactly. -/
theorem C7_amended_witness :
    convertToInt64 (JsonNode.jint 5 "" []) = some 5 :=
  C7_amended_int64_via_float.2.2 5 "" [] (by norm_num)

/-- C8: resolvePointer resolves the empty path to the node itself; each
slash-separated segment is consumed by a Struct as a key (failing when
the key is absent) or by a Vector as a non-negative base-10 index
(failing when out of range or non-numeric); on the inventory example,
the path /items/0/name yields the string node sword while /items/5/name
fails. -/
theorem C8_resolvePointer_contract :
    (∀ n : JsonNode, resolvePointer n "" = some n) ∧
    (∀ (rest : List String) (m : JMap) (mm : String) (mf : List String)
        (seg : String) (v : JsonNode), lookupJM seg m = some v →
        resolveSegs (seg :: rest) (JsonNode.jobj m mm mf) = resolveSegs rest v) ∧
    (∀ (rest : List String) (m : JMap) (mm : String) (mf : List String)
        (seg : String), lookupJM seg m = none →
        resolveSegs (seg :: rest) (JsonNode.jobj m mm mf) = none) ∧
    (∀ (rest : List String) (xs : JList) (mm : String) (mf : List String)
        (seg : String) (i : Nat) (v : JsonNode),
        parseIndex seg = some i → getJL xs i = some v →
        resolveSegs (seg :: rest) (JsonNode.jarr xs mm mf) = resolveSegs rest v) ∧
    (∀ (rest : List String) (xs : JList) (mm : String) (mf : List String)
        (seg : String) (i : Nat), parseIndex seg = some i → getJL xs i = none →
        resolveSegs (seg :: rest) (JsonNode.jarr xs mm mf) = none) ∧
    (∀ (rest : List String) (xs : JList) (mm : String) (mf : List String)
        (seg : String), parseIndex seg = none →
        resolveSegs (seg :: rest) (JsonNode.jarr xs mm mf) = none) ∧
    resolvePointer exampleInventory "/items/0/name" = some (JsonNode.jstr "sword" "" []) ∧
    resolvePointer exampleInventory "/items/5/name" = none := by
  refine ⟨fun n => rfl, ?_, ?_, ?_, ?_, ?_, rfl, rfl⟩
  · intro rest m mm mf seg v h
    simp [resolveSegs, h]
  · intro rest m mm mf seg h
    simp [resolveSegs, h]
  · intro rest xs mm mf seg i v hp hg
    simp [resolveSegs, hp, hg]
  · intro rest xs mm mf seg i hp hg
    simp [resolveSegs, hp, hg]
  · intro rest xs mm mf seg hp
    simp [resolveSegs, hp]

/-- Witness for C8: the struct-key resolution step applied at a
concrete one-entry struct. -/
theorem C8_witness :
    resolveSegs ["x"] (JsonNode.jobj (JMap.ofList [("x", JsonNode.jint 7 "" [])]) "" [])
      = resolveSegs [] (JsonNode.jint 7 "" []) :=
  C8_resolvePointer_contract.2.1 [] (JMap.ofList [("x", JsonNode.jint 7 "" [])])
    "" [] "x" (JsonNode.jint 7 "" []) rfl

theorem mergeEntries_lookup_notin (k : String) (sm : JMap) (io : Bool)
    (h : keyMemJM k sm = false) :
    ∀ dm, lookupJM k (JsonUtils.mergeEntries dm sm io) = lookupJM k dm := by
  induction sm using jmapIndOn with
  | hnil => intro dm; rfl
  | hcons k1 v1 t ih =>
      intro dm
      rw [keyMemJM] at h
      by_cases hk : k1 = k
      · rw [if_pos hk] at h
        simp at h
      · rw [if_neg hk] at h
        simp only [JsonUtils.mergeEntries]
        rw [ih h]
        by_cases hn : (isNullData v1 && !io) = true
        · rw [if_pos hn]
          exact lookupJM_eraseJM_ne k k1 dm hk
        · rw [if_neg hn]
          exact lookupJM_setJM_ne k k1 _ dm hk

theorem mergeEntries_lookup_none (k : String) (sm : JMap) :
    distinctJM sm = true → ∀ v, lookupJM k sm = some v → isNullData v = true →
    ∀ dm, lookupJM k (JsonUtils.mergeEntries dm sm false) = none := by
  induction sm using jmapIndOn with
  | hnil => intro _ v hkv; simp [lookupJM] at hkv
  | hcons k1 v1 t ih =>
      intro hd v hkv hv dm
      simp only [distinctJM, Bool.and_eq_true, Bool.not_eq_true'] at hd
      rw [lookupJM] at hkv
      simp only [JsonUtils.mergeEntries]
      by_cases hk : k1 = k
      · rw [if_pos hk] at hkv
        cases hkv
        rw [if_pos (by simp [hv])]
        subst hk
        rw [mergeEntries_lookup_notin _ t false hd.1]
        exact lookupJM_eraseJM_self _ dm
      · rw [if_neg hk] at hkv
        by_cases hn : (isNullData v1 && !false) = true
        · rw [if_pos hn]
          exact ih hd.2 v hkv hv (eraseJM k1 dm)
        · rw [if_neg hn]
          exact ih hd.2 v hkv hv _

/-- C2: in merge with ignoreOverride unset (and the source struct not
override-flagged, so that the tombstone rule rather than wholesale
replacement applies), whenever the source struct holds Null at a key
where the destination struct has an entry, that entry is deleted from
the result; concretely, merging the destination holding a mapped to 1
and b mapped to 2 with the source holding b mapped to Null and c mapped
to 3 yields the struct holding a mapped to 1 and c mapped to 3. -/
theorem C2_merge_null_tombstone :
    (∀ (dm sm : JMap) (dmeta smeta : String) (dflags sflags : List String)
        (k : String) (v : JsonNode),
        sflags.contains "override" = false →
        distinctJM sm = true →
        lookupJM k sm = some v →
        isNullData v = true →
        keyMemJM k dm = true →
        lookupJM k (structEntries (JsonUtils.merge (JsonNode.jobj dm dmeta dflags)
          (JsonNode.jobj sm smeta sflags) false false)) = none) ∧
    JsonUtils.merge
        (JsonNode.jobj (JMap.ofList
          [("a", JsonNode.jint 1 "" []), ("b", JsonNode.jint 2 "" [])]) "" [])
        (JsonNode.jobj (JMap.ofList
          [("b", nullNode), ("c", JsonNode.jint 3 "" [])]) "" []) false false
      = JsonNode.jobj (JMap.ofList
          [("a", JsonNode.jint 1 "" []), ("c", JsonNode.jint 3 "" [])]) "" [] := by
  constructor
  · intro dm sm dmeta smeta dflags sflags k v hov hdist hkv hv hmem
    simp only [JsonUtils.merge, Bool.not_false, Bool.true_and, hov, if_false]
    exact mergeEntries_lookup_none k sm hdist v hkv hv dm
  · rfl

/-- Witness for C2: the tombstone conjunct applied at the concrete
scenario, deleting the key b. -/
theorem C2_witness :
    lookupJM "b" (structEntries (JsonUtils.merge
      (JsonNode.jobj (JMap.ofList
        [("a", JsonNode.jint 1 "" []), ("b", JsonNode.jint 2 "" [])]) "" [])
      (JsonNode.jobj (JMap.ofList
        [("b", nullNode), ("c", JsonNode.jint 3 "" [])]) "" []) false false)) = none :=
  C2_merge_null_tombstone.1
    (JMap.ofList [("a", JsonNode.jint 1 "" []), ("b", JsonNode.jint 2 "" [])])
    (JMap.ofList [("b", nullNode), ("c", JsonNode.jint 3 "" [])])
    "" "" [] [] "b" nullNode rfl rfl rfl rfl rfl

theorem interEntries_keyMem (k : String) (am bm : JMap) (pe : Bool)
    (h : keyMemJM k (JsonUtils.interEntries am bm pe) = true) :
    keyMemJM k am = true := by
  induction am using jmapIndOn with
  | hnil => simp [JsonUtils.interEntries, keyMemJM] at h
  | hcons k1 v1 rest ih =>
      rw [keyMemJM]
      by_cases hk : k1 = k
      · rw [if_pos hk]
      · rw [if_neg hk]
        refine ih ?_
        simp only [JsonUtils.interEntries] at h
        cases hkb : lookupJM k1 bm with
        | none =>
            rw [hkb] at h
            exact h
        | some w =>
            rw [hkb] at h
            dsimp only at h
            by_cases hp : (pe && isEmptyOrNull (JsonUtils.intersect v1 w pe)) = true
            · rw [if_pos hp] at h
              exact h
            · rw [if_neg hp] at h
              rw [keyMemJM, if_neg hk] at h
              exact h

theorem distinctJM_interEntries (am bm : JMap) (pe : Bool)
    (hd : distinctJM am = true) :
    distinctJM (JsonUtils.interEntries am bm pe) = true := by
  induction am using jmapIndOn with
  | hnil => rfl
  | hcons k1 v1 rest ih =>
      simp only [distinctJM, Bool.and_eq_true, Bool.not_eq_true'] at hd
      simp only [JsonUtils.interEntries]
      cases hkb : lookupJM k1 bm with
      | none => exact ih hd.2
      | some w =>
          dsimp only
          by_cases hp : (pe && isEmptyOrNull (JsonUtils.intersect v1 w pe)) = true
          · rw [if_pos hp]
            exact ih hd.2
          · rw [if_neg hp]
            simp only [distinctJM, Bool.and_eq_true, Bool.not_eq_true']
            refine ⟨?_, ih hd.2⟩
            by_cases hm : keyMemJM k1 (JsonUtils.interEntries rest bm pe) = true
            · rw [interEntries_keyMem k1 rest bm pe hm] at hd
              simp at hd
            · simp only [Bool.not_eq_true] at hm
              exact hm

theorem lookupJM_interEntries (k : String) (am bm : JMap) (pe : Bool)
    (hd : distinctJM am = true) :
    lookupJM k (JsonUtils.interEntries am bm pe) =
      (match lookupJM k am with
       | none => none
       | some v =>
          match lookupJM k bm with
          | none => none
          | some w =>
              if pe && isEmptyOrNull (JsonUtils.intersect v w pe) then none
              else some (JsonUtils.intersect v w pe)) := by
  induction am using jmapIndOn with
  | hnil => simp [JsonUtils.interEntries, lookupJM]
  | hcons k1 v1 rest ih =>
      simp only [distinctJM, Bool.and_eq_true, Bool.not_eq_true'] at hd
      have hnotin : ∀ m2 : JMap, keyMemJM k1 m2 = false →
          lookupJM k1 (JsonUtils.interEntries m2 bm pe) = none := by
        intro m2 hm2
        cases hl : lookupJM k1 (JsonUtils.interEntries m2 bm pe) with
        | none => rfl
        | some u =>
            have hmem : keyMemJM k1 (JsonUtils.interEntries m2 bm pe) = true := by
              rw [keyMemJM_eq_isSome, hl]
              rfl
            rw [interEntries_keyMem k1 m2 bm pe hmem] at hm2
            simp at hm2
      simp only [JsonUtils.interEntries]
      by_cases hk : k1 = k
      · subst hk
        rw [lookupJM, if_pos rfl]
        cases hkb : lookupJM k1 bm with
        | none =>
            dsimp only
            exact hnotin rest hd.1
        | some w =>
            dsimp only
            by_cases hp : (pe && isEmptyOrNull (JsonUtils.intersect v1 w pe)) = true
            · rw [if_pos hp, if_pos hp]
              exact hnotin rest hd.1
            · rw [if_neg hp, if_neg hp]
              rw [lookupJM, if_pos rfl]
      · rw [lookupJM, if_neg hk]
        cases hkb : lookupJM k1 bm with
        | none => exact ih hd.2
        | some w =>
            dsimp only
            by_cases hp : (pe && isEmptyOrNull (JsonUtils.intersect v1 w pe)) = true
            · rw [if_pos hp]
              exact ih hd.2
            · rw [if_neg hp]
              rw [lookupJM, if_neg hk]
              exact ih hd.2

theorem noPruneJM_lookup (k : String) (m : JMap) (v : JsonNode)
    (hm : noPruneJM m = true) (h : lookupJM k m = some v) :
    isEmptyOrNull v = false ∧ noPrune v = true := by
  induction m using jmapIndOn with
  | hnil => simp [lookupJM] at h
  | hcons k2 v2 t ih =>
      simp only [noPruneJM, Bool.and_eq_true, Bool.not_eq_true'] at hm
      by_cases h2 : k2 = k
      · rw [lookupJM, if_pos h2] at h
        cases h
        exact ⟨hm.1.1, hm.1.2⟩
      · rw [lookupJM, if_neg h2] at h
        exact ih hm.2 h

theorem intersect_self_aux :
    ∀ N a pe, sizeJ a ≤ N → nodeWF a = true → (pe = false ∨ noPrune a = true) →
      jsonEq (JsonUtils.intersect a a pe) a = true := by
  intro N
  induction N with
  | zero =>
      intro a pe hsz _ _
      have := one_le_sizeJ a
      omega
  | succ N ihN =>
      intro a pe hsz hwf hnp
      have hr := jsonEq_refl a hwf
      cases a with
      | jnull m f => simp [JsonUtils.intersect, hr]
      | jbool b m f => simp [JsonUtils.intersect, hr]
      | jfloat q m f => simp [JsonUtils.intersect, hr]
      | jstr s m f => simp [JsonUtils.intersect, hr]
      | jint i m f => simp [JsonUtils.intersect, hr]
      | jarr xs m f => simp [JsonUtils.intersect, hr]
      | jobj xs m f =>
          simp only [JsonUtils.intersect]
          simp only [nodeWF, Bool.and_eq_true] at hwf
          simp only [sizeJ] at hsz
          have hnpm : pe = false ∨ noPruneJM xs = true := by
            cases hnp with
            | inl h => exact Or.inl h
            | inr h =>
                right
                simpa [noPrune] using h
          simp only [jsonEq, Bool.and_eq_true]
          have hdR := distinctJM_interEntries xs xs pe hwf.1
          constructor
          · refine (jmapSub_iff _ xs hdR).mpr ?_
            intro k v hkv
            rw [lookupJM_interEntries k xs xs pe hwf.1] at hkv
            cases hx : lookupJM k xs with
            | none => rw [hx] at hkv; simp at hkv
            | some w =>
                rw [hx] at hkv
                dsimp only at hkv
                by_cases hp : (pe && isEmptyOrNull (JsonUtils.intersect w w pe)) = true
                · rw [if_pos hp] at hkv
                  simp at hkv
                · rw [if_neg hp] at hkv
                  cases hkv
                  have hs := sizeJ_le_of_lookupJM k xs w hx
                  have hwfw := jmapWF_lookupJM k xs w hwf.2 hx
                  have hnpw : pe = false ∨ noPrune w = true := by
                    cases hnpm with
                    | inl h => exact Or.inl h
                    | inr h => exact Or.inr (noPruneJM_lookup k xs w h hx).2
                  exact ⟨w, rfl, ihN w pe (by omega) hwfw hnpw⟩
          · refine (jmapKeys_iff xs _).mpr ?_
            intro k hk
            rw [keyMemJM_eq_isSome] at hk
            rw [keyMemJM_eq_isSome, lookupJM_interEntries k xs xs pe hwf.1]
            cases hx : lookupJM k xs with
            | none => rw [hx] at hk; simp at hk
            | some w =>
                dsimp only
                have hs := sizeJ_le_of_lookupJM k xs w hx
                have hwfw := jmapWF_lookupJM k xs w hwf.2 hx
                cases hnpm with
                | inl hpe =>
                    subst hpe
                    simp
                | inr hnp2 =>
                    have hnw := noPruneJM_lookup k xs w hnp2 hx
                    have heq := ihN w pe (by omega) hwfw (Or.inr hnw.2)
                    have hemp := isEmptyOrNull_of_jsonEq _ _ heq
                    rw [hemp, hnw.1]
                    simp

/-- C3 counterexample: with pruneEmpty set, intersect of the struct
holding x mapped to Null with itself drops the Null child entirely, so
the result (the empty struct) is not structurally equal to the input;
the claim fails exactly on the Struct-with-Null-or-empty-children case
it includes. -/
theorem C3_counterexample :
    jsonEq
      (JsonUtils.intersect
        (JsonNode.jobj (JMap.ofList [("x", nullNode)]) "" [])
        (JsonNode.jobj (JMap.ofList [("x", nullNode)]) "" []) true)
      (JsonNode.jobj (JMap.ofList [("x", nullNode)]) "" []) = false := by
  decide

/-- C3 amended: intersect of a well-formed tree with itself is
structurally equal to the tree whenever pruneEmpty is false; with
pruneEmpty set, idempotence additionally requires that no struct value
anywhere in the tree is Null or an empty struct (otherwise such a child
is omitted from the output, as in the counterexample). -/
theorem C3_amended_intersect_idempotent (a : JsonNode) (pe : Bool)
    (h1 : nodeWF a = true) (h2 : pe = false ∨ noPrune a = true) :
    jsonEq (JsonUtils.intersect a a pe) a = true :=
  intersect_self_aux (sizeJ a) a pe le_rfl h1 h2

/-- Witness for C3 amended: idempotence with pruneEmpty unset on the
very struct that refutes the pruneEmpty form, and with pruneEmpty set on
a struct with a non-empty child. -/
theorem C3_amended_witness :
    jsonEq
      (JsonUtils.intersect
        (JsonNode.jobj (JMap.ofList [("x", nullNode)]) "" [])
        (JsonNode.jobj (JMap.ofList [("x", nullNode)]) "" []) false)
      (JsonNode.jobj (JMap.ofList [("x", nullNode)]) "" []) = true ∧
    jsonEq
      (JsonUtils.intersect
        (JsonNode.jobj (JMap.ofList [("x", JsonNode.jint 1 "" [])]) "" [])
        (JsonNode.jobj (JMap.ofList [("x", JsonNode.jint 1 "" [])]) "" []) true)
      (JsonNode.jobj (JMap.ofList [("x", JsonNode.jint 1 "" [])]) "" []) = true :=
  ⟨C3_amended_intersect_idempotent
      (JsonNode.jobj (JMap.ofList [("x", nullNode)]) "" []) false
      (by decide) (Or.inl rfl),
   C3_amended_intersect_idempotent
      (JsonNode.jobj (JMap.ofList [("x", JsonNode.jint 1 "" [])]) "" []) true
      (by decide) (Or.inr (by decide))⟩

theorem sstreeVal_not_null (v : JsonNode) (h : sstreeVal v = true) :
    isNullData v = false := by
  cases v <;> simp_all [sstreeVal, isNullData]

theorem sstreeJM_lookup (k : String) (m : JMap) (v : JsonNode)
    (hm : sstreeJM m = true) (h : lookupJM k m = some v) : sstreeVal v = true := by
  induction m using jmapIndOn with
  | hnil => simp [lookupJM] at h
  | hcons k2 v2 t ih =>
      simp only [sstreeJM, Bool.and_eq_true] at hm
      by_cases h2 : k2 = k
      · rw [lookupJM, if_pos h2] at h
        cases h
        exact hm.1
      · rw [lookupJM, if_neg h2] at h
        exact ih hm.2 h

theorem getDJM_some (k : String) (m : JMap) (v : JsonNode)
    (h : lookupJM k m = some v) : getDJM k m = v := by
  simp [getDJM, h]

theorem getDJM_none (k : String) (m : JMap)
    (h : lookupJM k m = none) : getDJM k m = nullNode := by
  simp [getDJM, h]

theorem merge_wholesale (d v : JsonNode) (hv : sstreeVal v = true)
    (h : isObjB d = false ∨ isObjB v = false) :
    JsonUtils.merge d v false false = v := by
  cases v with
  | jnull m f => simp [sstreeVal] at hv
  | jarr xs m f => simp [sstreeVal] at hv
  | jbool b m f => cases d <;> rfl
  | jfloat q m f => cases d <;> rfl
  | jstr s m f => cases d <;> rfl
  | jint i m f => cases d <;> rfl
  | jobj xs m f =>
      cases d <;> simp_all [isObjB, JsonUtils.merge]

theorem difference_nonobj (n b : JsonNode)
    (h : isObjB n = false ∨ isObjB b = false) (hne : jsonEq n b = false) :
    JsonUtils.difference n b = n := by
  cases n <;> cases b <;> simp_all [isObjB, JsonUtils.difference]

theorem diffEntries_keyMem (k : String) (nm bm : JMap)
    (h : keyMemJM k (JsonUtils.diffEntries nm bm) = true) :
    keyMemJM k nm = true := by
  induction nm using jmapIndOn with
  | hnil => simp [JsonUtils.diffEntries, keyMemJM] at h
  | hcons k1 v1 rest ih =>
      rw [keyMemJM]
      by_cases hk : k1 = k
      · rw [if_pos hk]
      · rw [if_neg hk]
        refine ih ?_
        simp only [JsonUtils.diffEntries] at h
        cases hkb : lookupJM k1 bm with
        | none =>
            rw [hkb] at h
            dsimp only at h
            rw [keyMemJM, if_neg hk] at h
            exact h
        | some w =>
            rw [hkb] at h
            dsimp only at h
            by_cases hje : jsonEq v1 w = true
            · rw [if_pos hje] at h
              exact h
            · rw [if_neg hje] at h
              rw [keyMemJM, if_neg hk] at h
              exact h

theorem distinctJM_diffEntries (nm bm : JMap) (hd : distinctJM nm = true) :
    distinctJM (JsonUtils.diffEntries nm bm) = true := by
  induction nm using jmapIndOn with
  | hnil => rfl
  | hcons k1 v1 rest ih =>
      simp only [distinctJM, Bool.and_eq_true, Bool.not_eq_true'] at hd
      have hnot : keyMemJM k1 (JsonUtils.diffEntries rest bm) = false := by
        by_cases hm : keyMemJM k1 (JsonUtils.diffEntries rest bm) = true
        · rw [diffEntries_keyMem k1 rest bm hm] at hd
          simp at hd
        · simp only [Bool.not_eq_true] at hm
          exact hm
      simp only [JsonUtils.diffEntries]
      cases hkb : lookupJM k1 bm with
      | none =>
          dsimp only
          simp only [distinctJM, Bool.and_eq_true, Bool.not_eq_true']
          exact ⟨hnot, ih hd.2⟩
      | some w =>
          dsimp only
          by_cases hje : jsonEq v1 w = true
          · rw [if_pos hje]
            exact ih hd.2
          · rw [if_neg hje]
            simp only [distinctJM, Bool.and_eq_true, Bool.not_eq_true']
            exact ⟨hnot, ih hd.2⟩

theorem lookupJM_diffEntries (k : String) (nm bm : JMap)
    (hd : distinctJM nm = true) :
    lookupJM k (JsonUtils.diffEntries nm bm) =
      (match lookupJM k nm with
       | none => none
       | some v =>
          match lookupJM k bm with
          | none => some v
          | some w =>
              if jsonEq v w then none
              else some (JsonUtils.difference v w)) := by
  induction nm using jmapIndOn with
  | hnil => simp [JsonUtils.diffEntries, lookupJM]
  | hcons k1 v1 rest ih =>
      simp only [distinctJM, Bool.and_eq_true, Bool.not_eq_true'] at hd
      have hnotin : keyMemJM k1 rest = false → lookupJM k1 (JsonUtils.diffEntries rest bm) = none := by
        intro hm2
        cases hl : lookupJM k1 (JsonUtils.diffEntries rest bm) with
        | none => rfl
        | some u =>
            have hmem : keyMemJM k1 (JsonUtils.diffEntries rest bm) = true := by
              rw [keyMemJM_eq_isSome, hl]
              rfl
            rw [diffEntries_keyMem k1 rest bm hmem] at hm2
            simp at hm2
      simp only [JsonUtils.diffEntries]
      by_cases hk : k1 = k
      · subst hk
        rw [lookupJM, if_pos rfl]
        cases hkb : lookupJM k1 bm with
        | none =>
            dsimp only
            rw [lookupJM, if_pos rfl]
        | some w =>
            dsimp only
            by_cases hje : jsonEq v1 w = true
            · rw [if_pos hje, if_pos hje]
              exact hnotin hd.1
            · rw [if_neg hje, if_neg hje]
              rw [lookupJM, if_pos rfl]
      · rw [lookupJM, if_neg hk]
        cases hkb : lookupJM k1 bm with
        | none =>
            dsimp only
            rw [lookupJM, if_neg hk]
            exact ih hd.2
        | some w =>
            dsimp only
            by_cases hje : jsonEq v1 w = true
            · rw [if_pos hje]
              exact ih hd.2
            · rw [if_neg hje]
              rw [lookupJM, if_neg hk]
              exact ih hd.2

theorem deletedJM_keyMem (k : String) (bm nm : JMap)
    (h : keyMemJM k (JsonUtils.deletedJM bm nm) = true) :
    keyMemJM k bm = true ∧ keyMemJM k nm = false := by
  induction bm using jmapIndOn with
  | hnil => simp [JsonUtils.deletedJM, keyMemJM] at h
  | hcons k1 v1 rest ih =>
      simp only [JsonUtils.deletedJM] at h
      by_cases hmem : keyMemJM k1 nm = true
      · rw [if_pos hmem] at h
        have := ih h
        rw [keyMemJM]
        by_cases hk : k1 = k
        · subst hk
          exact absurd hmem (by simp [this.2])
        · rw [if_neg hk]
          exact this
      · rw [if_neg hmem] at h
        rw [keyMemJM] at h
        rw [keyMemJM]
        by_cases hk : k1 = k
        · rw [if_pos hk]
          subst hk
          simp only [Bool.not_eq_true] at hmem
          exact ⟨rfl, hmem⟩
        · rw [if_neg hk] at h ⊢
          exact ih h

theorem distinctJM_deletedJM (bm nm : JMap) (hd : distinctJM bm = true) :
    distinctJM (JsonUtils.deletedJM bm nm) = true := by
  induction bm using jmapIndOn with
  | hnil => rfl
  | hcons k1 v1 rest ih =>
      simp only [distinctJM, Bool.and_eq_true, Bool.not_eq_true'] at hd
      simp only [JsonUtils.deletedJM]
      by_cases hmem : keyMemJM k1 nm = true
      · rw [if_pos hmem]
        exact ih hd.2
      · rw [if_neg hmem]
        simp only [distinctJM, Bool.and_eq_true, Bool.not_eq_true']
        refine ⟨?_, ih hd.2⟩
        by_cases hm : keyMemJM k1 (JsonUtils.deletedJM rest nm) = true
        · rw [(deletedJM_keyMem k1 rest nm hm).1] at hd
          simp at hd
        · simp only [Bool.not_eq_true] at hm
          exact hm

theorem lookupJM_deletedJM (k : String) (bm nm : JMap)
    (hd : distinctJM bm = true) :
    lookupJM k (JsonUtils.deletedJM bm nm) =
      (if keyMemJM k bm && !keyMemJM k nm then some nullNode else none) := by
  induction bm using jmapIndOn with
  | hnil => simp [JsonUtils.deletedJM, lookupJM, keyMemJM]
  | hcons k1 v1 rest ih =>
      simp only [distinctJM, Bool.and_eq_true, Bool.not_eq_true'] at hd
      have hnotin : keyMemJM k1 rest = false →
          lookupJM k1 (JsonUtils.deletedJM rest nm) = none := by
        intro hm2
        cases hl : lookupJM k1 (JsonUtils.deletedJM rest nm) with
        | none => rfl
        | some u =>
            have hmem : keyMemJM k1 (JsonUtils.deletedJM rest nm) = true := by
              rw [keyMemJM_eq_isSome, hl]
              rfl
            rw [(deletedJM_keyMem k1 rest nm hmem).1] at hm2
            simp at hm2
      simp only [JsonUtils.deletedJM]
      by_cases hk : k1 = k
      · subst hk
        rw [keyMemJM, if_pos rfl]
        by_cases hmem : keyMemJM k1 nm = true
        · rw [if_pos hmem, hnotin hd.1, hmem]
          simp
        · simp only [Bool.not_eq_true] at hmem
          rw [if_neg (by simp [hmem]), lookupJM, if_pos rfl, hmem]
          simp
      · rw [keyMemJM, if_neg hk]
        by_cases hmem : keyMemJM k1 nm = true
        · rw [if_pos hmem]
          exact ih hd.2
        · rw [if_neg hmem, lookupJM, if_neg hk]
          exact ih hd.2

theorem distinctJM_appendJM (xs ys : JMap) (hx : distinctJM xs = true)
    (hy : distinctJM ys = true)
    (hdisj : ∀ k, keyMemJM k xs = true → keyMemJM k ys = false) :
    distinctJM (appendJM xs ys) = true := by
  induction xs using jmapIndOn with
  | hnil => exact hy
  | hcons k1 v1 t ih =>
      simp only [distinctJM, Bool.and_eq_true, Bool.not_eq_true'] at hx
      simp only [appendJM, distinctJM, Bool.and_eq_true, Bool.not_eq_true']
      constructor
      · rw [keyMemJM_appendJM, hx.1, hdisj k1 (by rw [keyMemJM, if_pos rfl])]
        rfl
      · refine ih hx.2 ?_
        intro k hk
        refine hdisj k ?_
        rw [keyMemJM]
        by_cases h2 : k1 = k <;> simp [h2, hk]

theorem lookupJM_mergeEntries (k : String) (sm : JMap) (io : Bool)
    (hd : distinctJM sm = true) :
    ∀ dm, lookupJM k (JsonUtils.mergeEntries dm sm io) =
      (match lookupJM k sm with
       | none => lookupJM k dm
       | some v =>
          if isNullData v && !io then none
          else some (JsonUtils.merge (getDJM k dm) v io false)) := by
  induction sm using jmapIndOn with
  | hnil => intro dm; rfl
  | hcons k1 v1 rest ih =>
      intro dm
      simp only [distinctJM, Bool.and_eq_true, Bool.not_eq_true'] at hd
      simp only [JsonUtils.mergeEntries]
      by_cases hk : k1 = k
      · subst hk
        rw [lookupJM, if_pos rfl]
        dsimp only
        rw [mergeEntries_lookup_notin k1 rest io hd.1]
        by_cases hn : (isNullData v1 && !io) = true
        · rw [if_pos hn, if_pos hn]
          exact lookupJM_eraseJM_self k1 dm
        · rw [if_neg hn, if_neg hn]
          exact lookupJM_setJM_self k1 _ dm
      · rw [lookupJM, if_neg hk]
        by_cases hn : (isNullData v1 && !io) = true
        · rw [if_pos hn, ih hd.2 (eraseJM k1 dm)]
          cases hr : lookupJM k rest with
          | none =>
              dsimp only
              exact lookupJM_eraseJM_ne k k1 dm hk
          | some v =>
              dsimp only
              have hg : getDJM k (eraseJM k1 dm) = getDJM k dm := by
                simp [getDJM, lookupJM_eraseJM_ne k k1 dm hk]
              rw [hg]
        · rw [if_neg hn, ih hd.2 (setJM k1 (JsonUtils.merge (getDJM k1 dm) v1 io false) dm)]
          cases hr : lookupJM k rest with
          | none =>
              dsimp only
              exact lookupJM_setJM_ne k k1 _ dm hk
          | some v =>
              dsimp only
              have hg : getDJM k (setJM k1 (JsonUtils.merge (getDJM k1 dm) v1 io false) dm)
                  = getDJM k dm := by
                simp [getDJM, lookupJM_setJM_ne k k1 _ dm hk]
              rw [hg]

theorem distinctJM_mergeEntries (sm : JMap) (io : Bool) :
    ∀ dm, distinctJM dm = true →
      distinctJM (JsonUtils.mergeEntries dm sm io) = true := by
  induction sm using jmapIndOn with
  | hnil => intro dm h; exact h
  | hcons k1 v1 rest ih =>
      intro dm h
      simp only [JsonUtils.mergeEntries]
      by_cases hn : (isNullData v1 && !io) = true
      · rw [if_pos hn]
        exact ih _ (distinctJM_eraseJM k1 dm h)
      · rw [if_neg hn]
        exact ih _ (distinctJM_setJM k1 _ dm h)

theorem sstree_of_val_obj (v : JsonNode) (h1 : sstreeVal v = true)
    (h2 : isObjB v = true) : sstree v = true := by
  cases v <;> simp_all [sstreeVal, isObjB, sstree]

theorem difference_obj_not_null (v w : JsonNode) (h1 : isObjB v = true)
    (h2 : isObjB w = true) :
    isNullData (JsonUtils.difference v w) = false := by
  cases v <;> cases w <;> simp_all [isObjB, JsonUtils.difference, isNullData]

theorem merge_difference_aux :
    ∀ N node base, sizeJ node ≤ N → nodeWF node = true → nodeWF base = true →
      sstree node = true → sstree base = true →
      jsonEq (JsonUtils.merge base (JsonUtils.difference node base) false false) node = true := by
  intro N
  induction N with
  | zero =>
      intro node base hsz _ _ _ _
      have := one_le_sizeJ node
      omega
  | succ N ihN =>
      intro node base hsz hwn hwb hsn hsb
      cases node with
      | jnull m f => simp [sstree] at hsn
      | jbool b m f => simp [sstree] at hsn
      | jfloat q m f => simp [sstree] at hsn
      | jstr s m f => simp [sstree] at hsn
      | jint i m f => simp [sstree] at hsn
      | jarr xs m f => simp [sstree] at hsn
      | jobj nm nmm nmf =>
      cases base with
      | jnull m2 f2 => simp [sstree] at hsb
      | jbool b2 m2 f2 => simp [sstree] at hsb
      | jfloat q2 m2 f2 => simp [sstree] at hsb
      | jstr s2 m2 f2 => simp [sstree] at hsb
      | jint i2 m2 f2 => simp [sstree] at hsb
      | jarr xs2 m2 f2 => simp [sstree] at hsb
      | jobj bm bmm bmf =>
      simp only [sstree] at hsn hsb
      simp only [nodeWF, Bool.and_eq_true] at hwn hwb
      simp only [sizeJ] at hsz
      simp only [JsonUtils.difference, JsonUtils.merge]
      rw [if_neg (by decide)]
      have hdist0 : distinctJM
          (appendJM (JsonUtils.diffEntries nm bm) (JsonUtils.deletedJM bm nm)) = true := by
        refine distinctJM_appendJM _ _ (distinctJM_diffEntries nm bm hwn.1)
          (distinctJM_deletedJM bm nm hwb.1) ?_
        intro k hk
        have h1 := diffEntries_keyMem k nm bm hk
        by_cases hm : keyMemJM k (JsonUtils.deletedJM bm nm) = true
        · rw [(deletedJM_keyMem k bm nm hm).2] at h1
          simp at h1
        · simpa using hm
      have hdR : distinctJM (JsonUtils.mergeEntries bm
          (appendJM (JsonUtils.diffEntries nm bm) (JsonUtils.deletedJM bm nm)) false) = true :=
        distinctJM_mergeEntries _ false bm hwb.1
      have hkey : ∀ k,
          (match lookupJM k nm with
           | some v => ∃ v2, lookupJM k (JsonUtils.mergeEntries bm
               (appendJM (JsonUtils.diffEntries nm bm) (JsonUtils.deletedJM bm nm)) false)
                 = some v2 ∧ jsonEq v2 v = true
           | none => lookupJM k (JsonUtils.mergeEntries bm
               (appendJM (JsonUtils.diffEntries nm bm) (JsonUtils.deletedJM bm nm)) false)
                 = none) := by
        intro k
        have hch := lookupJM_mergeEntries k
          (appendJM (JsonUtils.diffEntries nm bm) (JsonUtils.deletedJM bm nm)) false hdist0 bm
        rw [lookupJM_appendJM, lookupJM_diffEntries k nm bm hwn.1,
          lookupJM_deletedJM k bm nm hwb.1, keyMemJM_eq_isSome, keyMemJM_eq_isSome] at hch
        cases hn : lookupJM k nm with
        | none =>
            dsimp only
            cases hb : lookupJM k bm with
            | none =>
                simp [hn, hb] at hch
                exact hch
            | some w =>
                simp [hn, hb, isNullData, nullNode] at hch
                exact hch
        | some v =>
            dsimp only
            have hsv : sstreeVal v = true := sstreeJM_lookup k nm v hsn hn
            have hnn : isNullData v = false := sstreeVal_not_null v hsv
            have hwfv : nodeWF v = true := jmapWF_lookupJM k nm v hwn.2 hn
            have hszv : sizeJ v ≤ N := by
              have := sizeJ_le_of_lookupJM k nm v hn
              omega
            cases hb : lookupJM k bm with
            | none =>
                simp [hn, hb, hnn] at hch
                rw [getDJM_none k bm hb, merge_wholesale nullNode v hsv (Or.inl rfl)] at hch
                exact ⟨v, hch, jsonEq_refl v hwfv⟩
            | some w =>
                have hwfw : nodeWF w = true := jmapWF_lookupJM k bm w hwb.2 hb
                have hswv : sstreeVal w = true := sstreeJM_lookup k bm w hsb hb
                by_cases hje : jsonEq v w = true
                · simp [hn, hb, hje] at hch
                  exact ⟨w, hch, jsonEq_symm v w hwfv hwfw hje⟩
                · have hjf : jsonEq v w = false := by simpa using hje
                  by_cases hobj : isObjB v = true ∧ isObjB w = true
                  · have hnnd := difference_obj_not_null v w hobj.1 hobj.2
                    simp [hn, hb, hjf, hnnd] at hch
                    rw [getDJM_some k bm w hb] at hch
                    have hIH := ihN v w hszv hwfv hwfw
                      (sstree_of_val_obj v hsv hobj.1) (sstree_of_val_obj w hswv hobj.2)
                    exact ⟨_, hch, hIH⟩
                  · have hor : isObjB v = false ∨ isObjB w = false := by
                      by_cases h1 : isObjB v = true
                      · right
                        by_cases h2 : isObjB w = true
                        · exact absurd ⟨h1, h2⟩ hobj
                        · simpa using h2
                      · left
                        simpa using h1
                    have hdv := difference_nonobj v w hor hjf
                    have hnnd : isNullData (JsonUtils.difference v w) = false := by
                      rw [hdv]
                      exact hnn
                    simp [hn, hb, hjf, hnnd] at hch
                    have hor2 : isObjB w = false ∨ isObjB v = false := by
                      cases hor with
                      | inl h => exact Or.inr h
                      | inr h => exact Or.inl h
                    rw [hdv, getDJM_some k bm w hb, merge_wholesale w v hsv hor2] at hch
                    exact ⟨v, hch, jsonEq_refl v hwfv⟩
      simp only [jsonEq, Bool.and_eq_true]
      constructor
      · refine (jmapSub_iff _ nm hdR).mpr ?_
        intro k v2 hkv2
        have hk := hkey k
        cases hn : lookupJM k nm with
        | none =>
            rw [hn] at hk
            dsimp only at hk
            rw [hk] at hkv2
            simp at hkv2
        | some v =>
            rw [hn] at hk
            dsimp only at hk
            obtain ⟨v3, h3, he⟩ := hk
            rw [hkv2] at h3
            cases h3
            exact ⟨v, rfl, he⟩
      · refine (jmapKeys_iff nm _).mpr ?_
        intro k hkm
        rw [keyMemJM_eq_isSome] at hkm
        have hk := hkey k
        cases hn : lookupJM k nm with
        | none =>
            rw [hn] at hkm
            simp at hkm
        | some v =>
            rw [hn] at hk
            dsimp only at hk
            obtain ⟨v3, h3, _⟩ := hk
            rw [keyMemJM_eq_isSome, h3]
            rfl

/-- C1 counterexample: the round-trip law fails already when node and
base are the same non-null scalar.  With node = base = Integer 1 the
difference is Null (equal values), and merging a Null source clears the
destination to Null, which is not structurally equal to Integer 1. -/
theorem C1_counterexample :
    jsonEq
      (JsonUtils.merge (JsonNode.jint 1 "" [])
        (JsonUtils.difference (JsonNode.jint 1 "" []) (JsonNode.jint 1 "" [])) false false)
      (JsonNode.jint 1 "" []) = false := by
  decide

/-- C1 amended: the round-trip law merge(copyOf(base),
difference(node, base)) == node holds whenever node and base are
well-formed Struct trees all of whose nested values are non-Null,
non-Vector scalars or further such Structs.  In general the law fails:
when node equals base at a non-Struct position the difference is Null
and merging Null clears the destination (the counterexample), when node
stores an explicit Null entry the difference reproduces it as a
tombstone that deletes rather than stores the entry, and Vector values
are merged positionally rather than replaced. -/
theorem C1_amended_merge_difference_roundtrip (node base : JsonNode)
    (h1 : nodeWF node = true) (h2 : nodeWF base = true)
    (h3 : sstree node = true) (h4 : sstree base = true) :
    jsonEq (JsonUtils.merge base (JsonUtils.difference node base) false false) node = true :=
  merge_difference_aux (sizeJ node) node base le_rfl h1 h2 h3 h4

/-- Witness for C1 amended at the spec's concrete scenario 2: the
difference of the struct holding a mapped to 1 and b mapped to 2 minus
the struct holding a mapped to 1, merged back onto the base, yields the
original node. -/
theorem C1_amended_witness :
    jsonEq
      (JsonUtils.merge
        (JsonNode.jobj (JMap.ofList [("a", JsonNode.jint 1 "" [])]) "" [])
        (JsonUtils.difference
          (JsonNode.jobj (JMap.ofList
            [("a", JsonNode.jint 1 "" []), ("b", JsonNode.jint 2 "" [])]) "" [])
          (JsonNode.jobj (JMap.ofList [("a", JsonNode.jint 1 "" [])]) "" []))
        false false)
      (JsonNode.jobj (JMap.ofList
        [("a", JsonNode.jint 1 "" []), ("b", JsonNode.jint 2 "" [])]) "" []) = true :=
  C1_amended_merge_difference_roundtrip
    (JsonNode.jobj (JMap.ofList
      [("a", JsonNode.jint 1 "" []), ("b", JsonNode.jint 2 "" [])]) "" [])
    (JsonNode.jobj (JMap.ofList [("a", JsonNode.jint 1 "" [])]) "" [])
    (by decide) (by decide) (by decide) (by decide)

theorem memSF_eq_isSome (k : String) (fs : SFields) :
    memSF k fs = (lookupSF k fs).isSome := by
  induction fs using sfieldsIndOn with
  | hnil => rfl
  | hcons name req d sub t ih =>
      by_cases h : name = k
      · simp [memSF, lookupSF, if_pos h]
      · simp [memSF, lookupSF, if_neg h, ih]

theorem validateEntries_lookup (k : String) (entries : JMap) (fields : SFields)
    (v : JsonNode) (r : Bool) (d : JsonNode) (sub : JSchema)
    (hve : validateEntries entries fields = true)
    (hn : lookupJM k entries = some v)
    (hf : lookupSF k fields = some (r, d, sub)) : validate v sub = true := by
  induction entries using jmapIndOn with
  | hnil => simp [lookupJM] at hn
  | hcons k1 v1 t ih =>
      simp only [validateEntries, Bool.and_eq_true] at hve
      by_cases hk : k1 = k
      · rw [lookupJM, if_pos hk] at hn
        cases hn
        subst hk
        rw [hf] at hve
        exact hve.1
      · rw [lookupJM, if_neg hk] at hn
        exact ih hve.2 hn

theorem suppliesEntries_lookup (k : String) (entries : JMap) (fields : SFields)
    (v : JsonNode) (r : Bool) (d : JsonNode) (sub : JSchema)
    (hse : suppliesEntries entries fields = true)
    (hn : lookupJM k entries = some v)
    (hf : lookupSF k fields = some (r, d, sub)) : suppliesAll v sub = true := by
  induction entries using jmapIndOn with
  | hnil => simp [lookupJM] at hn
  | hcons k1 v1 t ih =>
      simp only [suppliesEntries, Bool.and_eq_true] at hse
      by_cases hk : k1 = k
      · rw [lookupJM, if_pos hk] at hn
        cases hn
        subst hk
        rw [hf] at hse
        exact hse.1
      · rw [lookupJM, if_neg hk] at hn
        exact ih hse.2 hn

theorem requiredPresent_lookup (k : String) (fields : SFields) (entries : JMap)
    (d : JsonNode) (sub : JSchema)
    (hrp : requiredPresent fields entries = true)
    (hf : lookupSF k fields = some (true, d, sub)) :
    keyMemJM k entries = true := by
  induction fields using sfieldsIndOn with
  | hnil => simp [lookupSF] at hf
  | hcons name req d0 sub0 t ih =>
      simp only [requiredPresent, Bool.and_eq_true] at hrp
      by_cases hk : name = k
      · rw [lookupSF, if_pos hk] at hf
        cases hf
        subst hk
        have := hrp.1
        simp at this
        exact this
      · rw [lookupSF, if_neg hk] at hf
        exact ih hrp.2 hf

theorem fieldsWF_lookup (k : String) (fields : SFields)
    (r : Bool) (d : JsonNode) (sub : JSchema)
    (hfw : fieldsWF fields = true)
    (hf : lookupSF k fields = some (r, d, sub)) :
    nodeWF d = true ∧ schemaWF sub = true := by
  induction fields using sfieldsIndOn with
  | hnil => simp [lookupSF] at hf
  | hcons name req d0 sub0 t ih =>
      simp only [fieldsWF, Bool.and_eq_true] at hfw
      by_cases hk : name = k
      · rw [lookupSF, if_pos hk] at hf
        cases hf
        exact ⟨hfw.1.1, hfw.1.2⟩
      · rw [lookupSF, if_neg hk] at hf
        exact ih hfw.2 hf

theorem defaultsRequiredF_lookup (k : String) (fields : SFields)
    (r : Bool) (d : JsonNode) (sub : JSchema)
    (hdr : defaultsRequiredF fields = true)
    (hf : lookupSF k fields = some (r, d, sub)) :
    (isNullData d = true ∨ r = true) ∧ defaultsRequired sub = true := by
  induction fields using sfieldsIndOn with
  | hnil => simp [lookupSF] at hf
  | hcons name req d0 sub0 t ih =>
      simp only [defaultsRequiredF, Bool.and_eq_true] at hdr
      by_cases hk : name = k
      · rw [lookupSF, if_pos hk] at hf
        cases hf
        have h1 := hdr.1.1
        simp only [Bool.or_eq_true] at h1
        exact ⟨h1, hdr.1.2⟩
      · rw [lookupSF, if_neg hk] at hf
        exact ih hdr.2 hf

theorem minEntries_keyMem (k : String) (entries : JMap) (fields : SFields)
    (h : keyMemJM k (minEntries entries fields) = true) :
    keyMemJM k entries = true := by
  induction entries using jmapIndOn with
  | hnil => simp [minEntries, keyMemJM] at h
  | hcons k1 v1 t ih =>
      rw [keyMemJM]
      by_cases hk : k1 = k
      · rw [if_pos hk]
      · rw [if_neg hk]
        refine ih ?_
        simp only [minEntries] at h
        cases hf : lookupSF k1 fields with
        | none =>
            rw [hf] at h
            dsimp only at h
            rw [keyMemJM, if_neg hk] at h
            exact h
        | some rds =>
            obtain ⟨r, d, sub⟩ := rds
            rw [hf] at h
            dsimp only at h
            by_cases hdel : (!isNullData d && jsonEq v1 d) = true
            · rw [if_pos hdel] at h
              exact h
            · rw [if_neg hdel] at h
              rw [keyMemJM, if_neg hk] at h
              exact h

theorem distinctJM_minEntries (entries : JMap) (fields : SFields)
    (hd : distinctJM entries = true) :
    distinctJM (minEntries entries fields) = true := by
  induction entries using jmapIndOn with
  | hnil => rfl
  | hcons k1 v1 t ih =>
      simp only [distinctJM, Bool.and_eq_true, Bool.not_eq_true'] at hd
      have hnot : keyMemJM k1 (minEntries t fields) = false := by
        by_cases hm : keyMemJM k1 (minEntries t fields) = true
        · rw [minEntries_keyMem k1 t fields hm] at hd
          simp at hd
        · simpa using hm
      simp only [minEntries]
      cases hf : lookupSF k1 fields with
      | none =>
          dsimp only
          simp only [distinctJM, Bool.and_eq_true, Bool.not_eq_true']
          exact ⟨hnot, ih hd.2⟩
      | some rds =>
          obtain ⟨r, d, sub⟩ := rds
          dsimp only
          by_cases hdel : (!isNullData d && jsonEq v1 d) = true
          · rw [if_pos hdel]
            exact ih hd.2
          · rw [if_neg hdel]
            simp only [distinctJM, Bool.and_eq_true, Bool.not_eq_true']
            exact ⟨hnot, ih hd.2⟩

theorem lookupJM_minEntries (k : String) (entries : JMap) (fields : SFields)
    (hd : distinctJM entries = true) :
    lookupJM k (minEntries entries fields) =
      (match lookupJM k entries with
       | none => none
       | some v =>
          match lookupSF k fields with
          | none => some v
          | some (_, d, sub) =>
              if !isNullData d && jsonEq v d then none
              else some (minimize v sub)) := by
  induction entries using jmapIndOn with
  | hnil => simp [minEntries, lookupJM]
  | hcons k1 v1 t ih =>
      simp only [distinctJM, Bool.and_eq_true, Bool.not_eq_true'] at hd
      have hnotin : keyMemJM k1 t = false →
          lookupJM k1 (minEntries t fields) = none := by
        intro hm2
        cases hl : lookupJM k1 (minEntries t fields) with
        | none => rfl
        | some u =>
            have hmem : keyMemJM k1 (minEntries t fields) = true := by
              rw [keyMemJM_eq_isSome, hl]
              rfl
            rw [minEntries_keyMem k1 t fields hmem] at hm2
            simp at hm2
      simp only [minEntries]
      by_cases hk : k1 = k
      · subst hk
        rw [lookupJM, if_pos rfl]
        cases hf : lookupSF k1 fields with
        | none =>
            dsimp only
            rw [lookupJM, if_pos rfl]
        | some rds =>
            obtain ⟨r, d, sub⟩ := rds
            dsimp only
            by_cases hdel : (!isNullData d && jsonEq v1 d) = true
            · rw [if_pos hdel, if_pos hdel]
              exact hnotin hd.1
            · rw [if_neg hdel, if_neg hdel]
              rw [lookupJM, if_pos rfl]
      · rw [lookupJM, if_neg hk]
        cases hf : lookupSF k1 fields with
        | none =>
            dsimp only
            rw [lookupJM, if_neg hk]
            exact ih hd.2
        | some rds =>
            obtain ⟨r, d, sub⟩ := rds
            dsimp only
            by_cases hdel : (!isNullData d && jsonEq v1 d) = true
            · rw [if_pos hdel]
              exact ih hd.2
            · rw [if_neg hdel]
              rw [lookupJM, if_neg hk]
              exact ih hd.2

theorem keyMemJM_maxEntries (k : String) (entries : JMap) (fields : SFields) :
    keyMemJM k (maxEntries entries fields) = keyMemJM k entries := by
  induction entries using jmapIndOn with
  | hnil => rfl
  | hcons k1 v1 t ih =>
      simp only [maxEntries]
      cases hf : lookupSF k1 fields with
      | none =>
          dsimp only
          rw [keyMemJM, keyMemJM, ih]
      | some rds =>
          obtain ⟨r, d, sub⟩ := rds
          dsimp only
          rw [keyMemJM, keyMemJM, ih]

theorem distinctJM_maxEntries (entries : JMap) (fields : SFields)
    (hd : distinctJM entries = true) :
    distinctJM (maxEntries entries fields) = true := by
  induction entries using jmapIndOn with
  | hnil => rfl
  | hcons k1 v1 t ih =>
      simp only [distinctJM, Bool.and_eq_true, Bool.not_eq_true'] at hd
      simp only [maxEntries]
      cases hf : lookupSF k1 fields with
      | none =>
          dsimp only
          simp only [distinctJM, Bool.and_eq_true, Bool.not_eq_true']
          rw [keyMemJM_maxEntries]
          exact ⟨hd.1, ih hd.2⟩
      | some rds =>
          obtain ⟨r, d, sub⟩ := rds
          dsimp only
          simp only [distinctJM, Bool.and_eq_true, Bool.not_eq_true']
          rw [keyMemJM_maxEntries]
          exact ⟨hd.1, ih hd.2⟩

theorem lookupJM_maxEntries (k : String) (entries : JMap) (fields : SFields)
    (hd : distinctJM entries = true) :
    lookupJM k (maxEntries entries fields) =
      (match lookupJM k entries with
       | none => none
       | some v =>
          match lookupSF k fields with
          | none => some v
          | some (_, _, sub) => some (maximize v sub)) := by
  induction entries using jmapIndOn with
  | hnil => simp [maxEntries, lookupJM]
  | hcons k1 v1 t ih =>
      simp only [distinctJM, Bool.and_eq_true, Bool.not_eq_true'] at hd
      simp only [maxEntries]
      by_cases hk : k1 = k
      · subst hk
        rw [lookupJM, if_pos rfl]
        cases hf : lookupSF k1 fields with
        | none =>
            dsimp only
            rw [lookupJM, if_pos rfl]
        | some rds =>
            obtain ⟨r, d, sub⟩ := rds
            dsimp only
            rw [lookupJM, if_pos rfl]
      · rw [lookupJM, if_neg hk]
        cases hf : lookupSF k1 fields with
        | none =>
            dsimp only
            rw [lookupJM, if_neg hk]
            exact ih hd.2
        | some rds =>
            obtain ⟨r, d, sub⟩ := rds
            dsimp only
            rw [lookupJM, if_neg hk]
            exact ih hd.2

theorem missingDefaults_keyMem (k : String) (fields : SFields) (entries : JMap)
    (h : keyMemJM k (missingDefaults fields entries) = true) :
    memSF k fields = true := by
  induction fields using sfieldsIndOn with
  | hnil => simp [missingDefaults, keyMemJM] at h
  | hcons name req d sub t ih =>
      rw [memSF]
      by_cases hk : name = k
      · rw [if_pos hk]
      · rw [if_neg hk]
        refine ih ?_
        simp only [missingDefaults] at h
        by_cases hc : (req && !isNullData d && !keyMemJM name entries) = true
        · rw [if_pos hc] at h
          rw [keyMemJM, if_neg hk] at h
          exact h
        · rw [if_neg hc] at h
          exact h

theorem distinctJM_missingDefaults (fields : SFields) (entries : JMap)
    (hd : distinctSF fields = true) :
    distinctJM (missingDefaults fields entries) = true := by
  induction fields using sfieldsIndOn with
  | hnil => rfl
  | hcons name req d sub t ih =>
      simp only [distinctSF, Bool.and_eq_true, Bool.not_eq_true'] at hd
      simp only [missingDefaults]
      by_cases hc : (req && !isNullData d && !keyMemJM name entries) = true
      · rw [if_pos hc]
        simp only [distinctJM, Bool.and_eq_true, Bool.not_eq_true']
        refine ⟨?_, ih hd.2⟩
        by_cases hm : keyMemJM name (missingDefaults t entries) = true
        · rw [missingDefaults_keyMem name t entries hm] at hd
          simp at hd
        · simpa using hm
      · rw [if_neg hc]
        exact ih hd.2

theorem lookupJM_missingDefaults (k : String) (fields : SFields) (entries : JMap)
    (hd : distinctSF fields = true) :
    lookupJM k (missingDefaults fields entries) =
      (match lookupSF k fields with
       | none => none
       | some (r, d, _) =>
          if r && !isNullData d && !keyMemJM k entries then some d else none) := by
  induction fields using sfieldsIndOn with
  | hnil => simp [missingDefaults, lookupSF, lookupJM]
  | hcons name req d sub t ih =>
      simp only [distinctSF, Bool.and_eq_true, Bool.not_eq_true'] at hd
      have hnotin : memSF k t = false →
          lookupJM k (missingDefaults t entries) = none := by
        intro hm2
        cases hl : lookupJM k (missingDefaults t entries) with
        | none => rfl
        | some u =>
            have hmem : keyMemJM k (missingDefaults t entries) = true := by
              rw [keyMemJM_eq_isSome, hl]
              rfl
            rw [missingDefaults_keyMem k t entries hmem] at hm2
            simp at hm2
      simp only [missingDefaults]
      by_cases hk : name = k
      · subst hk
        rw [lookupSF, if_pos rfl]
        dsimp only
        by_cases hc : (req && !isNullData d && !keyMemJM name entries) = true
        · rw [if_pos hc, if_pos hc, lookupJM, if_pos rfl]
        · rw [if_neg hc, if_neg hc]
          exact hnotin hd.1
      · rw [lookupSF, if_neg hk]
        by_cases hc : (req && !isNullData d && !keyMemJM name entries) = true
        · rw [if_pos hc, lookupJM, if_neg hk]
          exact ih hd.2
        · rw [if_neg hc]
          exact ih hd.2

theorem min_max_aux :
    ∀ N x s, sizeJ x ≤ N → nodeWF x = true → schemaWF s = true →
      defaultsRequired s = true → validate x s = true → suppliesAll x s = true →
      jsonEq (maximize (minimize x s) s) x = true := by
  intro N
  induction N with
  | zero =>
      intro x s hsz _ _ _ _ _
      have := one_le_sizeJ x
      omega
  | succ N ihN =>
      intro x s hsz hwx hws hdr hv hsup
      cases s with
      | any =>
          simp only [minimize, maximize]
          exact jsonEq_refl x hwx
      | object fields =>
      cases x with
      | jnull m f => simp [validate] at hv
      | jbool b m f => simp [validate] at hv
      | jfloat q m f => simp [validate] at hv
      | jstr s2 m f => simp [validate] at hv
      | jint i m f => simp [validate] at hv
      | jarr xs m f => simp [validate] at hv
      | jobj entries m f =>
      simp only [minimize, maximize]
      simp only [nodeWF, Bool.and_eq_true] at hwx
      simp only [schemaWF, Bool.and_eq_true] at hws
      simp only [defaultsRequired] at hdr
      simp only [validate, Bool.and_eq_true] at hv
      simp only [suppliesAll, Bool.and_eq_true] at hsup
      simp only [sizeJ] at hsz
      have hdME : distinctJM (minEntries entries fields) = true :=
        distinctJM_minEntries entries fields hwx.1
      have hmissME : ∀ k, keyMemJM k (missingDefaults fields (minEntries entries fields)) = true →
          keyMemJM k (minEntries entries fields) = false := by
        intro k hm
        rw [keyMemJM_eq_isSome, lookupJM_missingDefaults k fields _ hws.1] at hm
        cases hf : lookupSF k fields with
        | none =>
            rw [hf] at hm
            simp at hm
        | some rds =>
            obtain ⟨r, d, sub⟩ := rds
            rw [hf] at hm
            dsimp only at hm
            by_cases hc : (r && !isNullData d && !keyMemJM k (minEntries entries fields)) = true
            · simp only [Bool.and_eq_true, Bool.not_eq_true'] at hc
              exact hc.2
            · rw [if_neg hc] at hm
              simp at hm
      have hdR : distinctJM (appendJM (maxEntries (minEntries entries fields) fields)
          (missingDefaults fields (minEntries entries fields))) = true := by
        refine distinctJM_appendJM _ _ (distinctJM_maxEntries _ fields hdME)
          (distinctJM_missingDefaults fields _ hws.1) ?_
        intro k hk
        rw [keyMemJM_maxEntries] at hk
        by_cases hm : keyMemJM k (missingDefaults fields (minEntries entries fields)) = true
        · rw [hmissME k hm] at hk
          simp at hk
        · simpa using hm
      have hkey : ∀ k,
          (match lookupJM k entries with
           | some v => ∃ v2, lookupJM k (appendJM (maxEntries (minEntries entries fields) fields)
               (missingDefaults fields (minEntries entries fields))) = some v2 ∧ jsonEq v2 v = true
           | none => lookupJM k (appendJM (maxEntries (minEntries entries fields) fields)
               (missingDefaults fields (minEntries entries fields))) = none) := by
        intro k
        have hmin := lookupJM_minEntries k entries fields hwx.1
        have hmax := lookupJM_maxEntries k (minEntries entries fields) fields hdME
        rw [hmin] at hmax
        have hmiss := lookupJM_missingDefaults k fields (minEntries entries fields) hws.1
        rw [keyMemJM_eq_isSome, hmin] at hmiss
        have hch := lookupJM_appendJM k (maxEntries (minEntries entries fields) fields)
          (missingDefaults fields (minEntries entries fields))
        cases hn : lookupJM k entries with
        | none =>
            dsimp only
            simp only [hn] at hmax hmiss
            cases hf : lookupSF k fields with
            | none =>
                simp only [hf] at hmax hmiss
                try dsimp only at hmax hmiss
                rw [hmax, hmiss] at hch
                exact hch
            | some rds =>
                obtain ⟨r, d, sub⟩ := rds
                simp only [hf] at hmax hmiss
                try dsimp only at hmax hmiss
                by_cases hr : r = true
                · subst hr
                  have := requiredPresent_lookup k fields entries d sub hv.1 hf
                  rw [keyMemJM_eq_isSome, hn] at this
                  simp at this
                · have hrf : r = false := by simpa using hr
                  subst hrf
                  simp only [Bool.false_and, if_false] at hmiss
                  rw [hmax, hmiss] at hch
                  exact hch
        | some v =>
            dsimp only
            have hwfv : nodeWF v = true := jmapWF_lookupJM k entries v hwx.2 hn
            have hszv : sizeJ v ≤ N := by
              have := sizeJ_le_of_lookupJM k entries v hn
              omega
            simp only [hn] at hmax hmiss
            cases hf : lookupSF k fields with
            | none =>
                simp only [hf] at hmax hmiss
                try dsimp only at hmax hmiss
                rw [hmax] at hch
                dsimp only at hch
                exact ⟨v, hch, jsonEq_refl v hwfv⟩
            | some rds =>
                obtain ⟨r, d, sub⟩ := rds
                have hfw := fieldsWF_lookup k fields r d sub hws.2 hf
                have hdrf := defaultsRequiredF_lookup k fields r d sub hdr hf
                have hval := validateEntries_lookup k entries fields v r d sub hv.2 hn hf
                have hsupv := suppliesEntries_lookup k entries fields v r d sub hsup.2 hn hf
                simp only [hf] at hmax hmiss
                try dsimp only at hmax hmiss
                by_cases hdel : (!isNullData d && jsonEq v d) = true
                · have hnd : isNullData d = false := by
                    simp only [Bool.and_eq_true, Bool.not_eq_true'] at hdel
                    exact hdel.1
                  have hjvd : jsonEq v d = true := by
                    simp only [Bool.and_eq_true] at hdel
                    exact hdel.2
                  have hr : r = true := by
                    cases hdrf.1 with
                    | inl h => rw [h] at hnd; simp at hnd
                    | inr h => exact h
                  simp only [hdel, if_true] at hmax
                  try dsimp only at hmax
                  simp [hr, hnd, hjvd] at hmiss
                  rw [hmax, hmiss] at hch
                  try dsimp only at hch
                  exact ⟨d, hch, jsonEq_symm v d hwfv hfw.1 hjvd⟩
                · rw [Bool.not_eq_true] at hdel
                  simp only [hdel, if_false] at hmax
                  try dsimp only at hmax
                  rw [hmax] at hch
                  try dsimp only at hch
                  have hIH := ihN v sub hszv hwfv hfw.2 hdrf.2 hval hsupv
                  exact ⟨_, hch, hIH⟩
      simp only [jsonEq, Bool.and_eq_true]
      constructor
      · refine (jmapSub_iff _ entries hdR).mpr ?_
        intro k v2 hkv2
        have hk := hkey k
        cases hn : lookupJM k entries with
        | none =>
            rw [hn] at hk
            dsimp only at hk
            rw [hk] at hkv2
            simp at hkv2
        | some v =>
            rw [hn] at hk
            dsimp only at hk
            obtain ⟨v3, h3, he⟩ := hk
            rw [hkv2] at h3
            cases h3
            exact ⟨v, rfl, he⟩
      · refine (jmapKeys_iff entries _).mpr ?_
        intro k hkm
        rw [keyMemJM_eq_isSome] at hkm
        have hk := hkey k
        cases hn : lookupJM k entries with
        | none =>
            rw [hn] at hkm
            simp at hkm
        | some v =>
            rw [hn] at hk
            dsimp only at hk
            obtain ⟨v3, h3, _⟩ := hk
            rw [keyMemJM_eq_isSome, h3]
            rfl

/-- C4 counterexample: for the schema with the single optional field a
carrying default 1, the tree holding a mapped to 1 fully validates and
supplies every field, yet the round trip loses the entry: minimize
removes the default-equal value and maximize restores defaults only for
required fields, so the result is the empty struct, not the input. -/
theorem C4_counterexample :
    validate (JsonNode.jobj (JMap.ofList [("a", JsonNode.jint 1 "" [])]) "" [])
      (JSchema.object (SFields.cons "a" false (JsonNode.jint 1 "" []) JSchema.any SFields.nil))
      = true ∧
    suppliesAll (JsonNode.jobj (JMap.ofList [("a", JsonNode.jint 1 "" [])]) "" [])
      (JSchema.object (SFields.cons "a" false (JsonNode.jint 1 "" []) JSchema.any SFields.nil))
      = true ∧
    jsonEq
      (maximize
        (minimize (JsonNode.jobj (JMap.ofList [("a", JsonNode.jint 1 "" [])]) "" [])
          (JSchema.object (SFields.cons "a" false (JsonNode.jint 1 "" []) JSchema.any SFields.nil)))
        (JSchema.object (SFields.cons "a" false (JsonNode.jint 1 "" []) JSchema.any SFields.nil)))
      (JsonNode.jobj (JMap.ofList [("a", JsonNode.jint 1 "" [])]) "" []) = false := by
  refine ⟨by decide, by decide, by decide⟩

/-- C4 amended: for every well-formed tree x that fully validates
against a well-formed schema and supplies every field, and provided
additionally that every schema field declaring a default value is marked
required (at every nesting level), maximize(minimize(x, schema), schema)
is structurally equal to x; without that proviso an optional field whose
value equals its declared default is removed by minimize and never
restored by maximize, as in the counterexample.  The schema registry is
a fixed external parameter: the schema document is passed directly. -/
theorem C4_amended_min_max_roundtrip (x : JsonNode) (s : JSchema)
    (h1 : nodeWF x = true) (h2 : schemaWF s = true)
    (h3 : defaultsRequired s = true) (h4 : validate x s = true)
    (h5 : suppliesAll x s = true) :
    jsonEq (maximize (minimize x s) s) x = true :=
  min_max_aux (sizeJ x) x s le_rfl h1 h2 h3 h4 h5

/-- Witness for C4 amended: with the same field marked required, the
tree holding a mapped to 1 round-trips to itself (minimize drops the
default-equal entry, maximize restores it). -/
theorem C4_amended_witness :
    jsonEq
      (maximize
        (minimize (JsonNode.jobj (JMap.ofList [("a", JsonNode.jint 1 "" [])]) "" [])
          (JSchema.object (SFields.cons "a" true (JsonNode.jint 1 "" []) JSchema.any SFields.nil)))
        (JSchema.object (SFields.cons "a" true (JsonNode.jint 1 "" []) JSchema.any SFields.nil)))
      (JsonNode.jobj (JMap.ofList [("a", JsonNode.jint 1 "" [])]) "" []) = true :=
  C4_amended_min_max_roundtrip
    (JsonNode.jobj (JMap.ofList [("a", JsonNode.jint 1 "" [])]) "" [])
    (JSchema.object (SFields.cons "a" true (JsonNode.jint 1 "" []) JSchema.any SFields.nil))
    (by decide) (by decide) (by decide) (by decide) (by decide)
